import Mathlib

/-!
Verification development for the pgen2 grammar-table-driven LL(1) parsing
engine (header `cpp/pgen2.h`).  The header declares `parse::ParseError`
(fields `msg`, `tok`, `type`), and `parse::Parser` with `setup`,
`addtoken` and `rootnode`; the constructor ignores its grammar argument.
The body of the token-acceptance algorithm is not part of the sources, so
it is modelled here from the design document, section 4.2, as a fuel-based
state-transition function over an explicit stack of frames.
-/

/-- Opaque token reference (`syntax_asdl::Token*` in the header); the parser
never inspects it beyond storing it in leaf nodes, so an id suffices. -/
structure Token where
  id : Nat
deriving DecidableEq, Repr

/-- Error classification code for an unexpected token (spec section 7,
"Unexpected token": no arc matches and the state is not accepting). -/
def errBadInput : Int := 1

/-- Error classification code for a token arriving after the top-level
automaton is already willing to terminate (spec section 7). -/
def errTooMuchInput : Int := 2

/-- Message for the unexpected-token error. -/
def badInputMsg : String := "bad input"

/-- Message for the token-after-complete-construct error. -/
def tooMuchInputMsg : String := "too much input"

/-- The `parse::ParseError` record of the header: a message, the offending
token reference, and a numeric classification. -/
structure ParseError where
  msg : String
  tok : Token
  type : Int
deriving DecidableEq, Repr

/-- Constructor in the header's argument order:
`ParseError(Str* msg, int type_, syntax_asdl::Token* tok)`. -/
def ParseError.make (msg : String) (type_ : Int) (tok : Token) : ParseError :=
  ⟨msg, tok, type_⟩

/-- One arc of an automaton state: a label and a target state index
(spec section 3, Grammar Table). -/
structure Arc where
  label : Nat
  target : Nat
deriving DecidableEq, Repr

/-- One automaton state: an ordered arc list and an accepting flag
(spec section 3). -/
structure DState where
  arcs : List Arc
  accepting : Bool
deriving DecidableEq, Repr

/-- The automaton of one grammar symbol: an ordered sequence of states;
state 0 is the initial state by convention. -/
structure Dfa where
  states : List DState
deriving DecidableEq, Repr

/-- State lookup; out-of-range indices behave as a dead state with no arcs. -/
def Dfa.stateAt (d : Dfa) (s : Nat) : DState :=
  d.states.getD s ⟨[], false⟩

/-- Modelled from the spec: the Grammar Table (section 3) missing from the
sources.  A label is a nonterminal exactly when it has an automaton in
`dfas`; `first` stores the FIRST-set encoding produced by the external
grammar compiler; `start` is the designated start symbol. -/
structure Grammar where
  dfas : List (Nat × Dfa)
  first : List (Nat × List Nat)
  start : Nat
deriving DecidableEq, Repr

/-- The stored FIRST set of a nonterminal (empty when absent). -/
def firstOf (g : Grammar) (nt : Nat) : List Nat :=
  (List.lookup nt g.first).getD []

/-- Parse tree node (`pnode::PNode`): a leaf wrapping a token reference, or
an internal node with a symbol id and an ordered child sequence. -/
inductive PNode where
  | leaf (typ : Nat) (tok : Token)
  | node (typ : Nat) (children : List PNode)

mutual

/-- Decidable equality for parse tree nodes. -/
def PNode.decEq : (a b : PNode) → Decidable (a = b)
  | .leaf t k, .leaf u j =>
    if h1 : t = u then
      if h2 : k = j then isTrue (by rw [h1, h2])
      else isFalse (by intro h; cases h; exact h2 rfl)
    else isFalse (by intro h; cases h; exact h1 rfl)
  | .leaf _ _, .node _ _ => isFalse (by intro h; exact PNode.noConfusion h)
  | .node _ _, .leaf _ _ => isFalse (by intro h; exact PNode.noConfusion h)
  | .node t cs, .node u ds =>
    if h1 : t = u then
      match PNode.decEqList cs ds with
      | isTrue h2 => isTrue (by rw [h1, h2])
      | isFalse h2 => isFalse (by intro h; cases h; exact h2 rfl)
    else isFalse (by intro h; cases h; exact h1 rfl)

/-- Decidable equality for lists of parse tree nodes. -/
def PNode.decEqList : (cs ds : List PNode) → Decidable (cs = ds)
  | [], [] => isTrue rfl
  | [], _ :: _ => isFalse (by intro h; exact List.noConfusion h)
  | _ :: _, [] => isFalse (by intro h; exact List.noConfusion h)
  | c :: cs, d :: ds =>
    match PNode.decEq c d, PNode.decEqList cs ds with
    | isTrue h1, isTrue h2 => isTrue (by rw [h1, h2])
    | isFalse h1, _ => isFalse (by intro h; cases h; exact h1 rfl)
    | _, isFalse h2 => isFalse (by intro h; cases h; exact h2 rfl)

end

instance : DecidableEq PNode := PNode.decEq

/-- A stack frame: the automaton being walked, the current state index, and
the internal node under construction (symbol id plus ordered children).
The arc target recorded at push time is stored as the suspended parent
frame's state, as the spec allows ("recorded at push time"). -/
structure StackItem where
  dfa : Dfa
  state : Nat
  typ : Nat
  children : List PNode
deriving DecidableEq

/-- The node a frame is building. -/
def StackItem.fnode (f : StackItem) : PNode :=
  PNode.node f.typ f.children

/-- Mutable parser state: the explicit stack (head is the top frame) and the
completed root node (`Parser::rootnode`), set only on completion. -/
structure PState where
  stack : List StackItem
  rootnode : Option PNode
deriving DecidableEq

/-- Decision taken while scanning the arcs of the top state. -/
inductive ArcAction where
  | shift (target : Nat)
  | push (nt : Nat) (d : Dfa) (target : Nat)
deriving DecidableEq, Repr

/-- Modelled from the spec: step 2 of the algorithm in section 4.2.  Scan
the arcs in table order; the first arc whose label exactly matches wins as
a shift, otherwise the first arc whose nonterminal label has the input in
its FIRST set wins as a push. -/
def scanArcs (g : Grammar) (ilabel : Nat) : List Arc → Option ArcAction
  | [] => none
  | a :: rest =>
    if a.label = ilabel then some (ArcAction.shift a.target)
    else
      match List.lookup a.label g.dfas with
      | some d =>
        if ilabel ∈ firstOf g a.label then some (ArcAction.push a.label d a.target)
        else scanArcs g ilabel rest
      | none => scanArcs g ilabel rest

/-- Result of one `addtoken` call: a boolean decision with the new parser
state, or a raised `ParseError` with the state at the moment of failure. -/
inductive AddResult where
  | ok (done : Bool) (ps : PState)
  | err (e : ParseError) (ps : PState)
deriving DecidableEq

/-- Modelled from the spec: one iteration of the `Parser::addtoken` loop of
section 4.2 (the implementation is absent from the sources).  `Sum.inr`
is a final decision; `Sum.inl` is the stack after an internal push or pop
with which the loop continues.  A shift appends a leaf and then applies
step 4's completion check; a pop appends the finished node to the parent
frame; failures follow steps 3b and 3c; the empty stack is a violated
precondition, on which no decision is ever reached. -/
def addtokenStep (g : Grammar) (typ : Nat) (tok : Token) (ilabel : Nat)
    (root : Option PNode) : List StackItem → (List StackItem) ⊕ (Option AddResult)
  | [] => Sum.inr none
  | f :: rest =>
    match scanArcs g ilabel (Dfa.stateAt f.dfa f.state).arcs with
    | some (ArcAction.shift target) =>
      if rest.isEmpty && (Dfa.stateAt f.dfa target).accepting then
        Sum.inr (some (AddResult.ok true
          ⟨[], some (PNode.node f.typ (f.children ++ [PNode.leaf typ tok]))⟩))
      else
        Sum.inr (some (AddResult.ok false
          ⟨⟨f.dfa, target, f.typ, f.children ++ [PNode.leaf typ tok]⟩ :: rest, root⟩))
    | some (ArcAction.push nt d target) =>
      Sum.inl (⟨d, 0, nt, []⟩ :: ⟨f.dfa, target, f.typ, f.children⟩ :: rest)
    | none =>
      if (Dfa.stateAt f.dfa f.state).accepting then
        match rest with
        | [] =>
          Sum.inr (some (AddResult.err
            (ParseError.make tooMuchInputMsg errTooMuchInput tok) ⟨[f], root⟩))
        | p :: rest2 =>
          Sum.inl (⟨p.dfa, p.state, p.typ, p.children ++ [PNode.node f.typ f.children]⟩ :: rest2)
      else
        Sum.inr (some (AddResult.err
          (ParseError.make badInputMsg errBadInput tok) ⟨f :: rest, root⟩))

/-- Modelled from the spec: the `addtoken` loop, iterating `addtokenStep`
until a decision; each fuel unit pays for one internal shift, push or pop
decision, and `none` means no decision was reached within the fuel (the
loop can genuinely diverge on ill-formed tables). -/
def addtokenAux (g : Grammar) (typ : Nat) (tok : Token) (ilabel : Nat) :
    Nat → Option PNode → List StackItem → Option AddResult
  | 0, _, _ => none
  | fuel + 1, root, stack =>
    match addtokenStep g typ tok ilabel root stack with
    | Sum.inr r => r
    | Sum.inl stack2 => addtokenAux g typ tok ilabel fuel root stack2

/-- Modelled from the spec: `Parser::addtoken(typ, tok, ilabel)`. -/
def addtoken (g : Grammar) (typ : Nat) (tok : Token) (ilabel : Nat) (fuel : Nat)
    (ps : PState) : Option AddResult :=
  addtokenAux g typ tok ilabel fuel ps.rootnode ps.stack

/-- Modelled from the spec: `Parser::setup(start)` (section 4.1) pushes a
single frame for the start symbol's automaton at state 0 with a fresh
node. -/
def setup (g : Grammar) (start : Nat) : Option PState :=
  match List.lookup start g.dfas with
  | some d => some ⟨[⟨d, 0, start, []⟩], none⟩
  | none => none

/-- Outcome of feeding a token sequence one call at a time. -/
inductive FeedOutcome where
  | active (ps : PState)
  | completed (root : Option PNode) (leftover : List (Nat × Token × Nat))
  | failed (e : ParseError)
  | outOfFuel
deriving DecidableEq

/-- Drive the engine over a list of (typ, token, ilabel) triples, one
`addtoken` call per element, stopping at completion or failure. -/
def feedSeq (g : Grammar) (fuel : Nat) : List (Nat × Token × Nat) → PState → FeedOutcome
  | [], ps => FeedOutcome.active ps
  | c :: rest, ps =>
    match addtoken g c.1 c.2.1 c.2.2 fuel ps with
    | none => FeedOutcome.outOfFuel
    | some (AddResult.err e _) => FeedOutcome.failed e
    | some (AddResult.ok true ps2) => FeedOutcome.completed ps2.rootnode rest
    | some (AddResult.ok false ps2) => feedSeq g fuel rest ps2

/-- The resolved terminal labels of a token sequence. -/
def labelsOf (ts : List (Nat × Token × Nat)) : List Nat :=
  ts.map (fun c => c.2.2)

/-- The parser object right after construction.  The C++ constructor body is
empty and ignores its `grammar::Grammar*` argument (the grammar is a
compile-time constant in the translation), so no grammar is stored. -/
structure ParserObj where
  rootnode : Option PNode
deriving DecidableEq

/-- The `Parser::Parser(grammar)` constructor from the header: it ignores
`gArg` entirely (which may be null, here `none`). -/
def parserNew (_gArg : Option Grammar) : ParserObj :=
  ⟨none⟩

/-- A full run: construct a parser with `gArg` (ignored, as in the header),
set up with `start` against the translation's constant grammar `gGlobal`,
and feed the token sequence. -/
def runParser (gGlobal : Grammar) (gArg : Option Grammar) (start : Nat)
    (fuel : Nat) (ts : List (Nat × Token × Nat)) : Option FeedOutcome :=
  match parserNew gArg, setup gGlobal start with
  | _, some ps => some (feedSeq gGlobal fuel ts ps)
  | _, none => none

/-- Derivations of the grammar table: `GenState g d s ts` holds when walking
automaton `d` from state `s` can consume exactly the terminal label list
`ts` and stop in an accepting state, descending into nonterminal arcs
recursively.  This is the table's own notion of "derivation" (spec
section 3): a label is a terminal exactly when it has no automaton. -/
inductive GenState (g : Grammar) : Dfa → Nat → List Nat → Prop where
  | accept (d : Dfa) (s : Nat) :
      (Dfa.stateAt d s).accepting = true → GenState g d s []
  | shift (d : Dfa) (s : Nat) (a : Arc) (ts : List Nat) :
      a ∈ (Dfa.stateAt d s).arcs → List.lookup a.label g.dfas = none →
      GenState g d a.target ts → GenState g d s (a.label :: ts)
  | descend (d : Dfa) (s : Nat) (a : Arc) (dB : Dfa) (us ts : List Nat) :
      a ∈ (Dfa.stateAt d s).arcs → List.lookup a.label g.dfas = some dB →
      GenState g dB 0 us → GenState g d a.target ts → GenState g d s (us ++ ts)

/-- A nonterminal symbol generates a terminal label list. -/
def GenSym (g : Grammar) (sym : Nat) (ts : List Nat) : Prop :=
  ∃ d, List.lookup sym g.dfas = some d ∧ GenState g d 0 ts

/-- A label list is a valid prefix of some derivation of `sym`. -/
def validPref (g : Grammar) (sym : Nat) (ts : List Nat) : Prop :=
  ∃ ext, GenSym g sym (ts ++ ext)

/-- The remaining input that a stack configuration can consume to finish the
whole parse: each frame consumes a block from its current state, top
first (the suspended parent frames already hold their post-pop states,
since the push recorded the arc target there). -/
def StackAccepts (g : Grammar) : List StackItem → List Nat → Prop
  | [], ts => ts = []
  | f :: rest, ts =>
    ∃ u v, ts = u ++ v ∧ GenState g f.dfa f.state u ∧ StackAccepts g rest v

/-- Every frame holds the automaton registered for its symbol. -/
def StackWF (g : Grammar) (stack : List StackItem) : Prop :=
  ∀ f ∈ stack, List.lookup f.typ g.dfas = some f.dfa

/-- The terminal labels an arc can begin with, as encoded by the table:
the stored FIRST set for a nonterminal label, the label itself for a
terminal. -/
def tokensOf (g : Grammar) (a : Arc) : List Nat :=
  match List.lookup a.label g.dfas with
  | some _ => firstOf g a.label
  | none => [a.label]

/-- All labels on which some arc of a state can act. -/
def arcTokens (g : Grammar) (st : DState) : List Nat :=
  (st.arcs.map (tokensOf g)).flatten

/-- The labels that the suspended upper stack could consume next: the arc
tokens of each frame, plus deeper frames while states are accepting. -/
def followTokens (g : Grammar) : List StackItem → List Nat
  | [] => []
  | p :: rest =>
    arcTokens g (Dfa.stateAt p.dfa p.state) ++
      (if (Dfa.stateAt p.dfa p.state).accepting = true then followTokens g rest else [])

/-- Each frame's symbol dominates the continuation tokens of the stack above
it, relative to the certified FOLLOW data `fol`. -/
def FollowOK (g : Grammar) (fol : List (Nat × List Nat)) : List StackItem → Prop
  | [] => True
  | f :: rest =>
    (∀ t ∈ followTokens g rest, t ∈ (List.lookup f.typ fol).getD []) ∧ FollowOK g fol rest

/-- The certified FOLLOW set of a nonterminal (empty when absent). -/
def followOf (fol : List (Nat × List Nat)) (nt : Nat) : List Nat :=
  (List.lookup nt fol).getD []

/-- Certificate: no automaton accepts at its start state (no nonterminal
derives the empty token sequence). -/
def noEmptyStart (g : Grammar) : Bool :=
  g.dfas.all (fun p => !(Dfa.stateAt p.2 0).accepting)

/-- Certificate: the stored FIRST sets are closed under the table's arcs:
every label an initial arc can begin with is in the stored FIRST set of
its symbol. -/
def firstClosed (g : Grammar) : Bool :=
  g.dfas.all (fun p =>
    (Dfa.stateAt p.2 0).arcs.all (fun a =>
      (tokensOf g a).all (fun t => decide (t ∈ firstOf g p.1))))

/-- Two token lists share no element. -/
def listDisjoint (xs ys : List Nat) : Bool :=
  xs.all (fun x => !(decide (x ∈ ys)))

/-- The arcs of one state have pairwise disjoint begin-token sets. -/
def arcsDisjoint (g : Grammar) : List Arc → Bool
  | [] => true
  | a :: rest =>
    rest.all (fun b => listDisjoint (tokensOf g a) (tokensOf g b)) && arcsDisjoint g rest

/-- Certificate (LL(1) arc determinism): within every state of every
automaton, at most one arc can act on any given label. -/
def disjointCert (g : Grammar) : Bool :=
  g.dfas.all (fun p => p.2.states.all (fun st => arcsDisjoint g st.arcs))

/-- Certificate: the FOLLOW data is closed under the table's arcs: whatever
can follow a nonterminal occurrence (the tokens of the arc's target
state, and the enclosing symbol's FOLLOW when the target accepts) is in
that nonterminal's FOLLOW set. -/
def followClosed (g : Grammar) (fol : List (Nat × List Nat)) : Bool :=
  g.dfas.all (fun p => p.2.states.all (fun st => st.arcs.all (fun a =>
    match List.lookup a.label g.dfas with
    | some _ =>
      (arcTokens g (Dfa.stateAt p.2 a.target)).all
        (fun t => decide (t ∈ followOf fol a.label)) &&
      (!(Dfa.stateAt p.2 a.target).accepting ||
        (followOf fol p.1).all (fun t => decide (t ∈ followOf fol a.label)))
    | none => true)))

/-- Certificate (LL(1) exit determinism): at an accepting state of a
nonterminal's automaton, no arc can act on a token in that nonterminal's
FOLLOW set. -/
def noFollowConflict (g : Grammar) (fol : List (Nat × List Nat)) : Bool :=
  g.dfas.all (fun p => p.2.states.all (fun st =>
    !st.accepting || st.arcs.all (fun a => listDisjoint (tokensOf g a) (followOf fol p.1))))

/-- The full strong-LL(1) certificate for a grammar table. -/
def wfCert (g : Grammar) (fol : List (Nat × List Nat)) : Bool :=
  noEmptyStart g && firstClosed g && disjointCert g &&
    followClosed g fol && noFollowConflict g fol

/-- The certified rank of a nonterminal (0 when absent). -/
def rankOf (ranks : List (Nat × Nat)) (nt : Nat) : Nat :=
  (List.lookup nt ranks).getD 0

/-- Certificate (no left recursion): every nonterminal arc leaving a start
state descends to a strictly smaller rank. -/
def ranksDecrease (g : Grammar) (ranks : List (Nat × Nat)) : Bool :=
  g.dfas.all (fun p =>
    (Dfa.stateAt p.2 0).arcs.all (fun a =>
      match List.lookup a.label g.dfas with
      | some _ => Nat.blt (rankOf ranks a.label) (rankOf ranks p.1)
      | none => true))

/-- Certificate: all ranks are bounded by `maxR`. -/
def rankBounded (g : Grammar) (ranks : List (Nat × Nat)) (maxR : Nat) : Bool :=
  g.dfas.all (fun p => Nat.ble (rankOf ranks p.1) maxR)

/-- Termination of one `addtoken` call: some fuel suffices to reach a
decision. -/
def addtokenTerminates (g : Grammar) (typ : Nat) (tok : Token) (ilabel : Nat)
    (ps : PState) : Prop :=
  ∃ fuel, (addtoken g typ tok ilabel fuel ps).isSome = true

/-- The accepting flag of the top frame's current state. -/
def topAccepting (stack : List StackItem) : Bool :=
  match stack with
  | [] => false
  | f :: _ => (Dfa.stateAt f.dfa f.state).accepting

/-- The completed-parse shape: the stack was cleared and the final frame's
node (built at an accepting state) was installed as the root node. -/
def completedShape (ps : PState) : Prop :=
  ps.stack = [] ∧ ∃ f : StackItem, (Dfa.stateAt f.dfa f.state).accepting = true ∧
    ps.rootnode = some (PNode.node f.typ f.children)

mutual

/-- The (token type, token) pairs of the leaves of a node, left to right. -/
def pnodeLeaves : PNode → List (Nat × Token)
  | .leaf t k => [(t, k)]
  | .node _ cs => pnodeListLeaves cs

/-- The leaves of a child list, left to right. -/
def pnodeListLeaves : List PNode → List (Nat × Token)
  | [] => []
  | c :: cs => pnodeLeaves c ++ pnodeListLeaves cs

end

/-- All leaves held in a stack configuration, in tree order: a suspended
parent frame's children precede the frames stacked above it. -/
def stackLeaves : List StackItem → List (Nat × Token)
  | [] => []
  | f :: rest => stackLeaves rest ++ pnodeListLeaves f.children

/-- The nodes under construction in all stack frames, top first. -/
def frameNodes (stack : List StackItem) : List PNode :=
  stack.map StackItem.fnode

mutual

/-- Structural size of a tree, used to induct over trees. -/
def pnodeSize : PNode → Nat
  | .leaf _ _ => 1
  | .node _ cs => 1 + pnodeListSize cs

/-- Structural size of a child list. -/
def pnodeListSize : List PNode → Nat
  | [] => 0
  | c :: cs => pnodeSize c + pnodeListSize cs

end

mutual

/-- Tree growth order: `treeLe a b` holds when `b` extends `a` by appending
new children at the end of child sequences along the rightmost spine;
children other than the last are identical (a finished child is never
mutated, removed or reordered). -/
def treeLe : PNode → PNode → Bool
  | .leaf t k, .leaf u j => t == u && k == j
  | .node t cs, .node u ds => t == u && chainLe cs ds
  | _, _ => false

/-- Child-list growth order: initial children equal, the last may grow, and
new children may be appended after it. -/
def chainLe : List PNode → List PNode → Bool
  | [], _ => true
  | [c], d :: _ => treeLe c d
  | _ :: _, [] => false
  | c :: c2 :: cs, d :: ds => c == d && chainLe (c2 :: cs) ds

end

/-- Fold the stack into the single tree under construction: the top frame's
node is the last child (so far) of the frame below it, recursively. -/
def collapseFrom (f : StackItem) : List StackItem → PNode
  | [] => PNode.node f.typ f.children
  | p :: rest => collapseFrom ⟨p.dfa, p.state, p.typ, p.children ++ [PNode.node f.typ f.children]⟩ rest

/-- The tree under construction of a configuration, if any. -/
def collapseStack : List StackItem → Option PNode
  | [] => none
  | f :: rest => some (collapseFrom f rest)

/-- The tree present after a call: the root node on completion, otherwise
the collapsed stack. -/
def resultTree (r : AddResult) : Option PNode :=
  match r with
  | AddResult.ok true ps => ps.rootnode
  | AddResult.ok false ps => collapseStack ps.stack
  | AddResult.err _ ps => collapseStack ps.stack

/-- An outcome with no Parse Error and no fuel exhaustion. -/
def goodOutcome : FeedOutcome → Bool
  | FeedOutcome.active _ => true
  | FeedOutcome.completed _ _ => true
  | FeedOutcome.failed _ => false
  | FeedOutcome.outOfFuel => false

/-- Boolean form of the arc-matching test of spec step 2: an exact terminal
match, or a nonterminal whose stored FIRST set contains the label. -/
def arcMatchesB (g : Grammar) (ilabel : Nat) (a : Arc) : Bool :=
  decide (a.label = ilabel) ||
    (match List.lookup a.label g.dfas with
     | some _ => decide (ilabel ∈ firstOf g a.label)
     | none => false)

/-- The action the engine takes on a matching arc. -/
def actionOf (g : Grammar) (ilabel : Nat) (a : Arc) : ArcAction :=
  if a.label = ilabel then ArcAction.shift a.target
  else
    match List.lookup a.label g.dfas with
    | some d => ArcAction.push a.label d a.target
    | none => ArcAction.shift a.target

/-- Toy automaton: one rule accepting exactly one NUMBER (label 13). -/
def dS1 : Dfa := ⟨[⟨[⟨13, 1⟩], false⟩, ⟨[], true⟩]⟩

/-- Toy grammar with the single rule `dS1` as symbol 256. -/
def gS1 : Grammar := ⟨[(256, dS1)], [(256, [13])], 256⟩

/-- Fresh parser state for `gS1`. -/
def psS1 : PState := ⟨[⟨dS1, 0, 256, []⟩], none⟩

/-- Automaton of T -> NUMBER (symbol 257, NUMBER = 13). -/
def dT : Dfa := ⟨[⟨[⟨13, 1⟩], false⟩, ⟨[], true⟩]⟩

/-- Automaton of E -> T ((PLUS | MINUS) T)* (symbol 256, PLUS = 14,
MINUS = 15). -/
def dE : Dfa := ⟨[⟨[⟨257, 1⟩], false⟩, ⟨[⟨14, 2⟩, ⟨15, 2⟩], true⟩, ⟨[⟨257, 1⟩], false⟩]⟩

/-- The expression grammar of the spec's end-to-end example. -/
def gE : Grammar := ⟨[(256, dE), (257, dT)], [(256, [13]), (257, [13])], 256⟩

/-- Certified FOLLOW data for `gE`. -/
def folE : List (Nat × List Nat) := [(256, []), (257, [14, 15])]

/-- Certified ranks for `gE` (E above T). -/
def ranksE : List (Nat × Nat) := [(256, 1), (257, 0)]

/-- Fresh parser state for `gE`. -/
def psE0 : PState := ⟨[⟨dE, 0, 256, []⟩], none⟩

/-- A grammar with no automata at all, for exercising `scanArcs` on a
deliberately ambiguous arc list. -/
def gAmb : Grammar := ⟨[], [], 0⟩

/-- Automaton S -> T with T a nonterminal (label 257). -/
def dSL : Dfa := ⟨[⟨[⟨257, 1⟩], false⟩, ⟨[], true⟩]⟩

/-- Automaton T -> LETTER (label 97). -/
def dTL : Dfa := ⟨[⟨[⟨97, 1⟩], false⟩, ⟨[], true⟩]⟩

/-- A table whose stored FIRST set for T lies (it is empty although T can
begin with 97): the engine trusts it and rejects a valid prefix. -/
def gLie : Grammar := ⟨[(256, dSL), (257, dTL)], [(256, [97]), (257, [])], 256⟩

/-- Fresh parser state for `gLie`. -/
def psLie0 : PState := ⟨[⟨dSL, 0, 256, []⟩], none⟩

/-- An automaton with a dead non-accepting state after consuming 97. -/
def dDead : Dfa := ⟨[⟨[⟨97, 1⟩], false⟩, ⟨[], false⟩]⟩

/-- A table with a dead state: token 97 already has no valid continuation,
yet the engine only reports the error one call later. -/
def gDead : Grammar := ⟨[(256, dDead)], [(256, [97])], 256⟩

/-- Fresh parser state for `gDead`. -/
def psDead0 : PState := ⟨[⟨dDead, 0, 256, []⟩], none⟩

/-- A left-recursive automaton: state 0 descends into its own symbol. -/
def dLoop : Dfa := ⟨[⟨[⟨256, 1⟩], false⟩, ⟨[], true⟩]⟩

/-- A left-recursive table on which the `addtoken` loop never reaches a
decision for label 5. -/
def gLoop : Grammar := ⟨[(256, dLoop)], [(256, [5])], 256⟩

/-- Fresh parser state for `gLoop`. -/
def psLoop0 : PState := ⟨[⟨dLoop, 0, 256, []⟩], none⟩

/-- The parser state of `gE` after consuming one NUMBER token. -/
def psE1 : PState := ⟨[⟨dT, 1, 257, [PNode.leaf 13 ⟨0⟩]⟩, ⟨dE, 1, 256, []⟩], none⟩

/-- The call grew the configuration's tree: the collapsed tree before the
call is a growth-prefix (`treeLe`) of the tree after it. -/
def growsInto (stack : List StackItem) (r : AddResult) : Prop :=
  ∃ T1 T2, collapseStack stack = some T1 ∧ resultTree r = some T2 ∧ treeLe T1 T2 = true

/-- Some fuel makes the whole run of the token sequence end without a Parse
Error and without fuel exhaustion. -/
def eventuallyGood (g : Grammar) (ts : List (Nat × Token × Nat)) (ps : PState) : Prop :=
  ∃ fuel, goodOutcome (feedSeq g fuel ts ps) = true

/-- Unfolding of the loop driver at positive fuel. -/
theorem aux_succ (g : Grammar) (typ : Nat) (tok : Token) (ilabel : Nat)
    (n : Nat) (root : Option PNode) (stack : List StackItem) :
    addtokenAux g typ tok ilabel (n + 1) root stack =
      match addtokenStep g typ tok ilabel root stack with
      | Sum.inr r => r
      | Sum.inl stack2 => addtokenAux g typ tok ilabel n root stack2 := rfl

/-- Out of fuel: no decision. -/
theorem aux_zero (g : Grammar) (typ : Nat) (tok : Token) (ilabel : Nat)
    (root : Option PNode) (stack : List StackItem) :
    addtokenAux g typ tok ilabel 0 root stack = none := rfl

/-- Empty stack: no decision is ever reached. -/
theorem aux_nil (g : Grammar) (typ : Nat) (tok : Token) (ilabel : Nat)
    (n : Nat) (root : Option PNode) :
    addtokenAux g typ tok ilabel n root [] = none := by
  cases n with
  | zero => rfl
  | succ m => rfl

/-- Shape lemma: a shift that completes the parse (spec step 4, positive). -/
theorem aux_shift_done (g : Grammar) (typ : Nat) (tok : Token) (ilabel : Nat)
    (n : Nat) (root : Option PNode) (f : StackItem) (rest : List StackItem) (target : Nat)
    (hscan : scanArcs g ilabel (Dfa.stateAt f.dfa f.state).arcs = some (ArcAction.shift target))
    (hc : (rest.isEmpty && (Dfa.stateAt f.dfa target).accepting) = true) :
    addtokenAux g typ tok ilabel (n + 1) root (f :: rest) =
      some (AddResult.ok true
        ⟨[], some (PNode.node f.typ (f.children ++ [PNode.leaf typ tok]))⟩) := by
  simp [aux_succ, addtokenStep, hscan, hc]

/-- Shape lemma: a shift that does not complete the parse (step 4, negative). -/
theorem aux_shift_cont (g : Grammar) (typ : Nat) (tok : Token) (ilabel : Nat)
    (n : Nat) (root : Option PNode) (f : StackItem) (rest : List StackItem) (target : Nat)
    (hscan : scanArcs g ilabel (Dfa.stateAt f.dfa f.state).arcs = some (ArcAction.shift target))
    (hc : ¬((rest.isEmpty && (Dfa.stateAt f.dfa target).accepting) = true)) :
    addtokenAux g typ tok ilabel (n + 1) root (f :: rest) =
      some (AddResult.ok false
        ⟨⟨f.dfa, target, f.typ, f.children ++ [PNode.leaf typ tok]⟩ :: rest, root⟩) := by
  simp [aux_succ, addtokenStep, hscan, hc]

/-- Shape lemma: a push (spec step 2b) continues the loop. -/
theorem aux_push (g : Grammar) (typ : Nat) (tok : Token) (ilabel : Nat)
    (n : Nat) (root : Option PNode) (f : StackItem) (rest : List StackItem)
    (nt : Nat) (d : Dfa) (target : Nat)
    (hscan : scanArcs g ilabel (Dfa.stateAt f.dfa f.state).arcs =
      some (ArcAction.push nt d target)) :
    addtokenAux g typ tok ilabel (n + 1) root (f :: rest) =
      addtokenAux g typ tok ilabel n root
        (⟨d, 0, nt, []⟩ :: ⟨f.dfa, target, f.typ, f.children⟩ :: rest) := by
  simp [aux_succ, addtokenStep, hscan]

/-- Shape lemma: a pop (spec step 3a) continues the loop. -/
theorem aux_pop (g : Grammar) (typ : Nat) (tok : Token) (ilabel : Nat)
    (n : Nat) (root : Option PNode) (f p : StackItem) (rest2 : List StackItem)
    (hscan : scanArcs g ilabel (Dfa.stateAt f.dfa f.state).arcs = none)
    (hacc : (Dfa.stateAt f.dfa f.state).accepting = true) :
    addtokenAux g typ tok ilabel (n + 1) root (f :: p :: rest2) =
      addtokenAux g typ tok ilabel n root
        (⟨p.dfa, p.state, p.typ, p.children ++ [PNode.node f.typ f.children]⟩ :: rest2) := by
  simp [aux_succ, addtokenStep, hscan, hacc]

/-- Shape lemma: a token after a complete construct (spec step 3b) fails. -/
theorem aux_toomuch (g : Grammar) (typ : Nat) (tok : Token) (ilabel : Nat)
    (n : Nat) (root : Option PNode) (f : StackItem)
    (hscan : scanArcs g ilabel (Dfa.stateAt f.dfa f.state).arcs = none)
    (hacc : (Dfa.stateAt f.dfa f.state).accepting = true) :
    addtokenAux g typ tok ilabel (n + 1) root [f] =
      some (AddResult.err (ParseError.make tooMuchInputMsg errTooMuchInput tok)
        ⟨[f], root⟩) := by
  simp [aux_succ, addtokenStep, hscan, hacc]

/-- Shape lemma: an unexpected token (spec step 3c) fails. -/
theorem aux_bad (g : Grammar) (typ : Nat) (tok : Token) (ilabel : Nat)
    (n : Nat) (root : Option PNode) (f : StackItem) (rest : List StackItem)
    (hscan : scanArcs g ilabel (Dfa.stateAt f.dfa f.state).arcs = none)
    (hacc : ¬((Dfa.stateAt f.dfa f.state).accepting = true)) :
    addtokenAux g typ tok ilabel (n + 1) root (f :: rest) =
      some (AddResult.err (ParseError.make badInputMsg errBadInput tok)
        ⟨f :: rest, root⟩) := by
  cases rest with
  | nil => simp [aux_succ, addtokenStep, hscan, hacc]
  | cons p rest2 => simp [aux_succ, addtokenStep, hscan, hacc]

/-- Claim C1: a call that returns reports true exactly when, after the shift,
the stack holds one frame whose new state accepts; then the final frame's
node becomes the root node and the stack is cleared; otherwise it reports
false with no error, leaves the root node untouched and the stack
non-empty, and the one-frame-accepting condition fails for the new
stack. -/
theorem claim_C1 (g : Grammar) (typ : Nat) (tok : Token) (ilabel : Nat) :
    ∀ (fuel : Nat) (root : Option PNode) (stack : List StackItem)
      (done : Bool) (ps2 : PState),
    addtokenAux g typ tok ilabel fuel root stack = some (AddResult.ok done ps2) →
    (done = true → completedShape ps2) ∧
    (done = false → ps2.stack ≠ [] ∧ ps2.rootnode = root ∧
      ¬(ps2.stack.length = 1 ∧ topAccepting ps2.stack = true)) := by
  intro fuel
  induction fuel with
  | zero => intro root stack done ps2 h; rw [aux_zero] at h; cases h
  | succ n ih =>
    intro root stack done ps2 h
    cases stack with
    | nil => rw [aux_nil] at h; cases h
    | cons f rest =>
      cases hscan : scanArcs g ilabel (Dfa.stateAt f.dfa f.state).arcs with
      | some act =>
        cases act with
        | shift target =>
          by_cases hc : (rest.isEmpty && (Dfa.stateAt f.dfa target).accepting) = true
          · rw [aux_shift_done g typ tok ilabel n root f rest target hscan hc] at h
            cases h
            constructor
            · intro _
              refine ⟨rfl, ⟨f.dfa, target, f.typ, f.children ++ [PNode.leaf typ tok]⟩, ?_, rfl⟩
              exact ((Bool.and_eq_true _ _).mp hc).2
            · intro hfalse; cases hfalse
          · rw [aux_shift_cont g typ tok ilabel n root f rest target hscan hc] at h
            cases h
            constructor
            · intro htrue; cases htrue
            · intro _
              refine ⟨by simp, rfl, ?_⟩
              intro hcond
              apply hc
              have hrest : rest = [] := by
                have := hcond.1
                simpa using this
              subst hrest
              have := hcond.2
              simp [topAccepting] at this
              simp [this]
        | push nt d target =>
          rw [aux_push g typ tok ilabel n root f rest nt d target hscan] at h
          exact ih root _ done ps2 h
      | none =>
        by_cases hacc : (Dfa.stateAt f.dfa f.state).accepting = true
        · cases rest with
          | nil =>
            rw [aux_toomuch g typ tok ilabel n root f hscan hacc] at h
            cases h
          | cons p rest2 =>
            rw [aux_pop g typ tok ilabel n root f p rest2 hscan hacc] at h
            exact ih root _ done ps2 h
        · rw [aux_bad g typ tok ilabel n root f rest hscan hacc] at h
          cases h

/-- Witness for claim C1: the single NUMBER token completes the parse of
`gS1`, installing the final frame's node as the root. -/
theorem claim_C1_witness :
    completedShape ⟨[], some (PNode.node 256 [PNode.leaf 13 ⟨7⟩])⟩ :=
  (claim_C1 gS1 13 ⟨7⟩ 13 5 none psS1.stack true
    ⟨[], some (PNode.node 256 [PNode.leaf 13 ⟨7⟩])⟩ rfl).1 rfl

/-- Claim C5: the engine acts on the first arc of the state that matches
(exact terminal label, or nonterminal whose stored FIRST set contains the
label), scanning in table order; in particular, on a deliberately
ambiguous arc list whose two arcs both match label 7, the first-listed
arc wins. -/
theorem claim_C5 :
    (∀ (g : Grammar) (ilabel : Nat) (arcs : List Arc),
      scanArcs g ilabel arcs =
        (arcs.find? (arcMatchesB g ilabel)).map (actionOf g ilabel)) ∧
    scanArcs gAmb 7 [⟨7, 1⟩, ⟨7, 2⟩] = some (ArcAction.shift 1) := by
  constructor
  · intro g ilabel arcs
    induction arcs with
    | nil => rfl
    | cons a rest ih =>
      by_cases h1 : a.label = ilabel
      · simp [scanArcs, h1, arcMatchesB, actionOf]
      · cases hl : List.lookup a.label g.dfas with
        | some d =>
          by_cases h2 : ilabel ∈ firstOf g a.label
          · simp [scanArcs, h1, hl, h2, arcMatchesB, actionOf]
          · simp [scanArcs, h1, hl, h2, arcMatchesB, actionOf, ih]
        | none =>
          simp [scanArcs, h1, hl, arcMatchesB, actionOf, ih]
  · rfl

/-- Claim C10: the Parser constructor ignores its grammar argument (the
grammar is a compile-time constant in this translation): any two
constructor arguments, including null, give identical constructed
objects and identical behaviour on the same setup and token sequence. -/
theorem claim_C10 (gGlobal : Grammar) (g1 g2 : Option Grammar) (start fuel : Nat)
    (ts : List (Nat × Token × Nat)) :
    parserNew g1 = parserNew g2 ∧
      runParser gGlobal g1 start fuel ts = runParser gGlobal g2 start fuel ts :=
  ⟨rfl, rfl⟩

/-- Any error the loop produces wraps the offending input token and one of
the two classification codes. -/
theorem err_shape (g : Grammar) (typ : Nat) (tok : Token) (ilabel : Nat) :
    ∀ (fuel : Nat) (root : Option PNode) (stack : List StackItem)
      (e : ParseError) (ps2 : PState),
    addtokenAux g typ tok ilabel fuel root stack = some (AddResult.err e ps2) →
    e.tok = tok ∧ (e.type = errBadInput ∨ e.type = errTooMuchInput) := by
  intro fuel
  induction fuel with
  | zero => intro root stack e ps2 h; rw [aux_zero] at h; cases h
  | succ n ih =>
    intro root stack e ps2 h
    cases stack with
    | nil => rw [aux_nil] at h; cases h
    | cons f rest =>
      cases hscan : scanArcs g ilabel (Dfa.stateAt f.dfa f.state).arcs with
      | some act =>
        cases act with
        | shift target =>
          by_cases hc : (rest.isEmpty && (Dfa.stateAt f.dfa target).accepting) = true
          · rw [aux_shift_done g typ tok ilabel n root f rest target hscan hc] at h
            cases h
          · rw [aux_shift_cont g typ tok ilabel n root f rest target hscan hc] at h
            cases h
        | push nt d target =>
          rw [aux_push g typ tok ilabel n root f rest nt d target hscan] at h
          exact ih root _ e ps2 h
      | none =>
        by_cases hacc : (Dfa.stateAt f.dfa f.state).accepting = true
        · cases rest with
          | nil =>
            rw [aux_toomuch g typ tok ilabel n root f hscan hacc] at h
            cases h
            exact ⟨rfl, Or.inr rfl⟩
          | cons p rest2 =>
            rw [aux_pop g typ tok ilabel n root f p rest2 hscan hacc] at h
            exact ih root _ e ps2 h
        · rw [aux_bad g typ tok ilabel n root f rest hscan hacc] at h
          cases h
          exact ⟨rfl, Or.inl rfl⟩

/-- Claim C9: a Parse Error is a record of exactly a message, the offending
token, and a numeric classification: the constructor stores exactly its
three arguments, the three fields determine the record (immutable value
semantics), the two classification codes are distinct, and every error
the engine raises carries the token of the failing call and one of the
two codes. -/
theorem claim_C9 :
    (∀ (m : String) (t : Int) (k : Token),
      (ParseError.make m t k).msg = m ∧ (ParseError.make m t k).type = t ∧
        (ParseError.make m t k).tok = k) ∧
    (∀ e e2 : ParseError, e.msg = e2.msg → e.tok = e2.tok → e.type = e2.type → e = e2) ∧
    errBadInput ≠ errTooMuchInput ∧
    (∀ (g : Grammar) (typ : Nat) (tok : Token) (ilabel fuel : Nat)
      (root : Option PNode) (stack : List StackItem) (e : ParseError) (ps2 : PState),
      addtokenAux g typ tok ilabel fuel root stack = some (AddResult.err e ps2) →
      e.tok = tok ∧ (e.type = errBadInput ∨ e.type = errTooMuchInput)) := by
  refine ⟨fun m t k => ⟨rfl, rfl, rfl⟩, ?_, by decide, ?_⟩
  · intro e e2 h1 h2 h3
    cases e; cases e2
    simp only at h1 h2 h3
    rw [h1, h2, h3]
  · intro g typ tok ilabel fuel root stack e ps2 h
    exact err_shape g typ tok ilabel fuel root stack e ps2 h

/-- Witness for claim C9 at a concrete failing call: label 99 on the fresh
`gS1` parser raises the unexpected-token error carrying that token. -/
theorem claim_C9_witness :
    (ParseError.make badInputMsg errBadInput ⟨3⟩).tok = (⟨3⟩ : Token) ∧
      ((ParseError.make badInputMsg errBadInput ⟨3⟩).type = errBadInput ∨
        (ParseError.make badInputMsg errBadInput ⟨3⟩).type = errTooMuchInput) :=
  claim_C9.2.2.2 gS1 99 ⟨3⟩ 99 1 none psS1.stack
    (ParseError.make badInputMsg errBadInput ⟨3⟩) ⟨psS1.stack, none⟩ rfl

/-- Leaves distribute over child-list concatenation. -/
theorem pnodeListLeaves_append (xs ys : List PNode) :
    pnodeListLeaves (xs ++ ys) = pnodeListLeaves xs ++ pnodeListLeaves ys := by
  induction xs with
  | nil => rfl
  | cons c cs ih => simp [pnodeListLeaves, ih]

/-- Claim C7: a successful call consumes its token exactly once: exactly one
new leaf, wrapping the given token, is appended to the configuration's
leaf sequence (and to the root's on completion). -/
theorem claim_C7 (g : Grammar) (typ : Nat) (tok : Token) (ilabel : Nat) :
    ∀ (fuel : Nat) (root : Option PNode) (stack : List StackItem)
      (done : Bool) (ps2 : PState),
    addtokenAux g typ tok ilabel fuel root stack = some (AddResult.ok done ps2) →
    (done = false → stackLeaves ps2.stack = stackLeaves stack ++ [(typ, tok)]) ∧
    (done = true → ps2.rootnode.map pnodeLeaves =
      some (stackLeaves stack ++ [(typ, tok)])) := by
  intro fuel
  induction fuel with
  | zero => intro root stack done ps2 h; rw [aux_zero] at h; cases h
  | succ n ih =>
    intro root stack done ps2 h
    cases stack with
    | nil => rw [aux_nil] at h; cases h
    | cons f rest =>
      cases hscan : scanArcs g ilabel (Dfa.stateAt f.dfa f.state).arcs with
      | some act =>
        cases act with
        | shift target =>
          by_cases hc : (rest.isEmpty && (Dfa.stateAt f.dfa target).accepting) = true
          · rw [aux_shift_done g typ tok ilabel n root f rest target hscan hc] at h
            cases h
            have hrest : rest = [] := by
              have := ((Bool.and_eq_true _ _).mp hc).1
              simpa using this
            subst hrest
            constructor
            · intro hfalse; cases hfalse
            · intro _
              simp [pnodeLeaves, stackLeaves, pnodeListLeaves_append, pnodeListLeaves]
          · rw [aux_shift_cont g typ tok ilabel n root f rest target hscan hc] at h
            cases h
            constructor
            · intro _
              simp [stackLeaves, pnodeListLeaves_append, pnodeListLeaves, pnodeLeaves]
            · intro htrue; cases htrue
        | push nt d target =>
          rw [aux_push g typ tok ilabel n root f rest nt d target hscan] at h
          have hh := ih root _ done ps2 h
          have heq : stackLeaves
              (⟨d, 0, nt, []⟩ :: ⟨f.dfa, target, f.typ, f.children⟩ :: rest) =
              stackLeaves (f :: rest) := by
            simp [stackLeaves, pnodeListLeaves]
          rw [heq] at hh
          exact hh
      | none =>
        by_cases hacc : (Dfa.stateAt f.dfa f.state).accepting = true
        · cases rest with
          | nil =>
            rw [aux_toomuch g typ tok ilabel n root f hscan hacc] at h
            cases h
          | cons p rest2 =>
            rw [aux_pop g typ tok ilabel n root f p rest2 hscan hacc] at h
            have hh := ih root _ done ps2 h
            have heq : stackLeaves
                (⟨p.dfa, p.state, p.typ, p.children ++ [PNode.node f.typ f.children]⟩ :: rest2) =
                stackLeaves (f :: p :: rest2) := by
              simp [stackLeaves, pnodeListLeaves_append, pnodeListLeaves, pnodeLeaves,
                List.append_assoc]
            rw [heq] at hh
            exact hh
        · rw [aux_bad g typ tok ilabel n root f rest hscan hacc] at h
          cases h

/-- Witness for claim C7: the first NUMBER on the expression grammar adds
exactly the one leaf (13, token 0). -/
theorem claim_C7_witness :
    stackLeaves psE1.stack = stackLeaves psE0.stack ++ [(13, (⟨0⟩ : Token))] :=
  (claim_C7 gE 13 ⟨0⟩ 13 10 none psE0.stack false psE1 rfl).1 rfl

/-- Claim C4 (amended): a failing call consumes no token and discards
nothing: the configuration's leaf sequence and the root node are exactly
as before the call (internal pops may still have re-parented completed
nodes between frames before the failure was detected). -/
theorem claim_C4 (g : Grammar) (typ : Nat) (tok : Token) (ilabel : Nat) :
    ∀ (fuel : Nat) (root : Option PNode) (stack : List StackItem)
      (e : ParseError) (ps2 : PState),
    addtokenAux g typ tok ilabel fuel root stack = some (AddResult.err e ps2) →
    stackLeaves ps2.stack = stackLeaves stack ∧ ps2.rootnode = root := by
  intro fuel
  induction fuel with
  | zero => intro root stack e ps2 h; rw [aux_zero] at h; cases h
  | succ n ih =>
    intro root stack e ps2 h
    cases stack with
    | nil => rw [aux_nil] at h; cases h
    | cons f rest =>
      cases hscan : scanArcs g ilabel (Dfa.stateAt f.dfa f.state).arcs with
      | some act =>
        cases act with
        | shift target =>
          by_cases hc : (rest.isEmpty && (Dfa.stateAt f.dfa target).accepting) = true
          · rw [aux_shift_done g typ tok ilabel n root f rest target hscan hc] at h
            cases h
          · rw [aux_shift_cont g typ tok ilabel n root f rest target hscan hc] at h
            cases h
        | push nt d target =>
          rw [aux_push g typ tok ilabel n root f rest nt d target hscan] at h
          have hh := ih root _ e ps2 h
          have heq : stackLeaves
              (⟨d, 0, nt, []⟩ :: ⟨f.dfa, target, f.typ, f.children⟩ :: rest) =
              stackLeaves (f :: rest) := by
            simp [stackLeaves, pnodeListLeaves]
          rw [heq] at hh
          exact hh
      | none =>
        by_cases hacc : (Dfa.stateAt f.dfa f.state).accepting = true
        · cases rest with
          | nil =>
            rw [aux_toomuch g typ tok ilabel n root f hscan hacc] at h
            cases h
            exact ⟨rfl, rfl⟩
          | cons p rest2 =>
            rw [aux_pop g typ tok ilabel n root f p rest2 hscan hacc] at h
            have hh := ih root _ e ps2 h
            have heq : stackLeaves
                (⟨p.dfa, p.state, p.typ, p.children ++ [PNode.node f.typ f.children]⟩ :: rest2) =
                stackLeaves (f :: p :: rest2) := by
              simp [stackLeaves, pnodeListLeaves_append, pnodeListLeaves, pnodeLeaves,
                List.append_assoc]
            rw [heq] at hh
            exact hh
        · rw [aux_bad g typ tok ilabel n root f rest hscan hacc] at h
          cases h
          exact ⟨rfl, rfl⟩

/-- Witness for the amended claim C4 at a concrete failing call. -/
theorem claim_C4_witness :
    stackLeaves [⟨dE, 1, 256, [PNode.node 257 [PNode.leaf 13 ⟨0⟩]]⟩] =
      stackLeaves psE1.stack ∧ (none : Option PNode) = none :=
  claim_C4 gE 99 ⟨1⟩ 99 10 none psE1.stack
    (ParseError.make tooMuchInputMsg errTooMuchInput ⟨1⟩)
    ⟨[⟨dE, 1, 256, [PNode.node 257 [PNode.leaf 13 ⟨0⟩]]⟩], none⟩ rfl

/-- Counterexample to claim C4 as stated: on the expression grammar, after
one NUMBER, the failing call on label 99 pops the finished T frame into
the E frame before detecting the failure, so the nodes under
construction in the stack frames are not the same as before the call. -/
theorem claim_C4_counterexample :
    addtoken gE 99 ⟨1⟩ 99 10 psE1 =
      some (AddResult.err (ParseError.make tooMuchInputMsg errTooMuchInput ⟨1⟩)
        ⟨[⟨dE, 1, 256, [PNode.node 257 [PNode.leaf 13 ⟨0⟩]]⟩], none⟩) ∧
    frameNodes [⟨dE, 1, 256, [PNode.node 257 [PNode.leaf 13 ⟨0⟩]]⟩] ≠
      frameNodes psE1.stack :=
  ⟨rfl, by decide⟩

/-- Counterexample to claim C2 as stated: on the table `gLie`, whose stored
FIRST set for T is (incorrectly) empty, the single token 97 is a valid
prefix of a derivation, yet the very first call raises a Parse Error. -/
theorem claim_C2_counterexample :
    validPref gLie 256 [97] ∧
      addtoken gLie 97 ⟨0⟩ 97 10 psLie0 =
        some (AddResult.err (ParseError.make badInputMsg errBadInput ⟨0⟩)
          ⟨psLie0.stack, none⟩) := by
  constructor
  · refine ⟨[], dSL, by decide, ?_⟩
    have hT : GenState gLie dTL 0 [97] := by
      have hcont : GenState gLie dTL 1 [] := GenState.accept dTL 1 (by decide)
      exact GenState.shift dTL 0 ⟨97, 1⟩ [] (by decide) (by decide) hcont
    have hcontS : GenState gLie dSL 1 [] := GenState.accept dSL 1 (by decide)
    exact GenState.descend dSL 0 ⟨257, 1⟩ dTL [97] [] (by decide) (by decide) hT hcontS
  · rfl

/-- Nothing is derivable from the dead state 1 of `gDead`. -/
theorem gDead_state1_empty : ∀ L, ¬ GenState gDead dDead 1 L := by
  intro L h
  cases h with
  | accept _ _ hacc => exact absurd hacc (by decide)
  | shift _ _ a ts hmem _ _ =>
    have : a ∈ ([] : List Arc) := hmem
    simp at this
  | descend _ _ a dB us ts hmem _ _ _ =>
    have : a ∈ ([] : List Arc) := hmem
    simp at this

/-- Inversion at state 0 of `gDead`: any nonempty derivation shifts 97 and
continues from state 1. -/
theorem gDead_state0_inv :
    ∀ L, GenState gDead dDead 0 L → ∀ t rest2, L = t :: rest2 →
      GenState gDead dDead 1 rest2 := by
  intro L h
  cases h with
  | accept _ _ hacc => intro t r hL; cases hL
  | shift _ _ a ts hmem hlook hcont =>
    intro t r hL
    have hm2 : a ∈ [(⟨97, 1⟩ : Arc)] := hmem
    have ha : a = ⟨97, 1⟩ := by simpa using hm2
    subst ha
    cases hL
    exact hcont
  | descend _ _ a dB us ts hmem hlook _ _ =>
    intro t r hL
    have hm2 : a ∈ [(⟨97, 1⟩ : Arc)] := hmem
    have ha : a = ⟨97, 1⟩ := by simpa using hm2
    subst ha
    simp [gDead, List.lookup] at hlook

/-- Counterexample to claim C3 as stated: on the dead-state table `gDead`,
token 97 already has no valid continuation, yet the call on it succeeds;
the Parse Error can only come at a later call, not at the first token
with no valid continuation. -/
theorem claim_C3_counterexample :
    addtoken gDead 97 ⟨0⟩ 97 10 psDead0 =
      some (AddResult.ok false ⟨[⟨dDead, 1, 256, [PNode.leaf 97 ⟨0⟩]⟩], none⟩) ∧
    ¬ validPref gDead 256 [97] := by
  refine ⟨rfl, ?_⟩
  rintro ⟨ext, d, hd, hgen⟩
  have hd2 : d = dDead := by
    simp [gDead, List.lookup] at hd
    exact hd.symm
  subst hd2
  exact gDead_state1_empty ext (gDead_state0_inv ([97] ++ ext) hgen 97 ext rfl)

/-- On the left-recursive table, the loop keeps pushing the same frame and
never reaches a decision, whatever the fuel. -/
theorem loop_no_decision :
    ∀ (fuel : Nat) (root : Option PNode) (rest : List StackItem),
    addtokenAux gLoop 5 ⟨0⟩ 5 fuel root (⟨dLoop, 0, 256, []⟩ :: rest) = none := by
  intro fuel
  induction fuel with
  | zero => intro root rest; rfl
  | succ n ih =>
    intro root rest
    have hscan : scanArcs gLoop 5
        (Dfa.stateAt (⟨dLoop, 0, 256, []⟩ : StackItem).dfa
          (⟨dLoop, 0, 256, []⟩ : StackItem).state).arcs =
        some (ArcAction.push 256 dLoop 1) := by decide
    rw [aux_push gLoop 5 ⟨0⟩ 5 n root ⟨dLoop, 0, 256, []⟩ rest 256 dLoop 1 hscan]
    exact ih root _

/-- Counterexample to claim C6 as stated: on the left-recursive table
`gLoop`, a single `addtoken` call on label 5 never terminates. -/
theorem claim_C6_counterexample :
    ¬ addtokenTerminates gLoop 5 ⟨0⟩ 5 psLoop0 := by
  rintro ⟨fuel, h⟩
  have hnone : addtoken gLoop 5 ⟨0⟩ 5 fuel psLoop0 = none :=
    loop_no_decision fuel none []
  rw [hnone] at h
  cases h

/-- A successful association-list lookup means membership. -/
theorem lookup_mem {β : Type} (k : Nat) (v : β) :
    ∀ l : List (Nat × β), List.lookup k l = some v → (k, v) ∈ l := by
  intro l
  induction l with
  | nil => intro h; cases h
  | cons p rest ih =>
    intro h
    cases p with
    | mk k2 v2 =>
      by_cases hk : k = k2
      · subst hk
        simp [List.lookup] at h
        subst h
        exact List.mem_cons_self _ _
      · have hbeq : (k == k2) = false := beq_eq_false_iff_ne.mpr hk
        simp [List.lookup, hbeq] at h
        exact List.mem_cons_of_mem _ (ih h)

/-- Inversion of a push decision: the pushed automaton is the one registered
for the pushed symbol, which labels an arc of the scanned list. -/
theorem scan_push_inv (g : Grammar) (ilabel : Nat) :
    ∀ (arcs : List Arc) (nt : Nat) (d : Dfa) (t : Nat),
    scanArcs g ilabel arcs = some (ArcAction.push nt d t) →
    List.lookup nt g.dfas = some d ∧ ∃ a, a ∈ arcs ∧ a.label = nt ∧ a.target = t := by
  intro arcs
  induction arcs with
  | nil => intro nt d t h; cases h
  | cons a rest ih =>
    intro nt d t h
    by_cases h1 : a.label = ilabel
    · simp [scanArcs, h1] at h
    · cases hl : List.lookup a.label g.dfas with
      | some d2 =>
        by_cases h2 : ilabel ∈ firstOf g a.label
        · simp [scanArcs, h1, hl, h2] at h
          obtain ⟨hnt, hd, ht⟩ := h
          subst hnt
          refine ⟨by rw [hl, hd], a, List.mem_cons_self _ _, rfl, ht⟩
        · simp only [scanArcs, if_neg h1, hl, if_neg h2] at h
          obtain ⟨hlk, a2, hmem, hl2, ht2⟩ := ih nt d t h
          exact ⟨hlk, a2, List.mem_cons_of_mem _ hmem, hl2, ht2⟩
      | none =>
        simp only [scanArcs, if_neg h1, hl] at h
        obtain ⟨hlk, a2, hmem, hl2, ht2⟩ := ih nt d t h
        exact ⟨hlk, a2, List.mem_cons_of_mem _ hmem, hl2, ht2⟩

/-- Push-phase termination: from the start state of a registered automaton,
with no empty-accepting start states and ranks decreasing along descent,
the loop reaches a decision within `rank` steps. -/
theorem push_phase_terminates (g : Grammar) (typ : Nat) (tok : Token) (ilabel : Nat)
    (ranks : List (Nat × Nat))
    (hne : noEmptyStart g = true) (hrd : ranksDecrease g ranks = true) :
    ∀ (n : Nat) (B : Nat) (d : Dfa) (ch : List PNode) (rest : List StackItem)
      (root : Option PNode),
    List.lookup B g.dfas = some d → rankOf ranks B < n →
    (addtokenAux g typ tok ilabel n root (⟨d, 0, B, ch⟩ :: rest)).isSome = true := by
  intro n
  induction n with
  | zero => intro B d ch rest root hlk hr; cases hr
  | succ n ih =>
    intro B d ch rest root hlk hr
    have hmem : (B, d) ∈ g.dfas := lookup_mem B d g.dfas hlk
    cases hscan : scanArcs g ilabel
        (Dfa.stateAt (⟨d, 0, B, ch⟩ : StackItem).dfa (⟨d, 0, B, ch⟩ : StackItem).state).arcs with
    | some act =>
      cases act with
      | shift target =>
        by_cases hc : (rest.isEmpty &&
            (Dfa.stateAt (⟨d, 0, B, ch⟩ : StackItem).dfa target).accepting) = true
        · rw [aux_shift_done g typ tok ilabel n root _ rest target hscan hc]; rfl
        · rw [aux_shift_cont g typ tok ilabel n root _ rest target hscan hc]; rfl
      | push nt d2 target =>
        rw [aux_push g typ tok ilabel n root _ rest nt d2 target hscan]
        obtain ⟨hlk2, a, hamem, hlab, htgt⟩ := scan_push_inv g ilabel _ nt d2 target hscan
        have hrank : rankOf ranks nt < rankOf ranks B := by
          have h1 := (List.all_eq_true.mp hrd) (B, d) hmem
          have h2 := (List.all_eq_true.mp h1) a hamem
          rw [hlab] at h2
          cases hl2 : List.lookup nt g.dfas with
          | none => rw [hl2] at hlk2; cases hlk2
          | some dd =>
            rw [hl2] at h2
            exact Nat.blt_eq.mp h2
        exact ih nt d2 [] _ root hlk2 (Nat.lt_of_lt_of_le hrank (Nat.le_of_lt_succ hr))
    | none =>
      by_cases hacc : (Dfa.stateAt (⟨d, 0, B, ch⟩ : StackItem).dfa
          (⟨d, 0, B, ch⟩ : StackItem).state).accepting = true
      · exfalso
        have h1 := (List.all_eq_true.mp hne) (B, d) hmem
        simp only [Bool.not_eq_true'] at h1
        have : (Dfa.stateAt d 0).accepting = true := hacc
        rw [h1] at this
        cases this
      · rw [aux_bad g typ tok ilabel n root _ rest hscan hacc]; rfl

/-- Claim C6 (amended): for every grammar table in which no automaton
accepts at its start state (no nonterminal derives the empty sequence)
and nonterminal descent strictly decreases a bounded rank (no left
recursion), a single `addtoken` call reaches a decision — shift,
completion, or Parse Error — within `stack length + maxR + 2` internal
steps, including cascaded pop-and-redispatch chains.  (Without these
conditions the loop can run forever; see the counterexample.) -/
theorem claim_C6 (g : Grammar) (ranks : List (Nat × Nat)) (maxR : Nat)
    (hne : noEmptyStart g = true) (hrd : ranksDecrease g ranks = true)
    (hrb : rankBounded g ranks maxR = true) :
    ∀ (len : Nat) (stack : List StackItem) (typ : Nat) (tok : Token) (ilabel : Nat)
      (root : Option PNode),
    stack ≠ [] → stack.length ≤ len →
    (addtokenAux g typ tok ilabel (len + maxR + 2) root stack).isSome = true := by
  intro len
  induction len with
  | zero =>
    intro stack typ tok ilabel root hst hlen
    cases stack with
    | nil => exact absurd rfl hst
    | cons f rest => simp at hlen
  | succ len ih =>
    intro stack typ tok ilabel root hst hlen
    cases stack with
    | nil => exact absurd rfl hst
    | cons f rest =>
      have hfuel : len + 1 + maxR + 2 = (len + maxR + 2) + 1 := by omega
      rw [hfuel]
      cases hscan : scanArcs g ilabel (Dfa.stateAt f.dfa f.state).arcs with
      | some act =>
        cases act with
        | shift target =>
          by_cases hc : (rest.isEmpty && (Dfa.stateAt f.dfa target).accepting) = true
          · rw [aux_shift_done g typ tok ilabel _ root f rest target hscan hc]; rfl
          · rw [aux_shift_cont g typ tok ilabel _ root f rest target hscan hc]; rfl
        | push nt d2 target =>
          rw [aux_push g typ tok ilabel _ root f rest nt d2 target hscan]
          obtain ⟨hlk2, a, hamem, hlab, htgt⟩ := scan_push_inv g ilabel _ nt d2 target hscan
          have hb : rankOf ranks nt ≤ maxR := by
            have h1 := (List.all_eq_true.mp hrb) (nt, d2) (lookup_mem nt d2 g.dfas hlk2)
            exact Nat.ble_eq.mp h1
          exact push_phase_terminates g typ tok ilabel ranks hne hrd
            (len + maxR + 2) nt d2 [] _ root hlk2 (by omega)
      | none =>
        by_cases hacc : (Dfa.stateAt f.dfa f.state).accepting = true
        · cases rest with
          | nil => rw [aux_toomuch g typ tok ilabel _ root f hscan hacc]; rfl
          | cons p rest2 =>
            rw [aux_pop g typ tok ilabel _ root f p rest2 hscan hacc]
            have hlen2 : (⟨p.dfa, p.state, p.typ,
                p.children ++ [PNode.node f.typ f.children]⟩ :: rest2).length ≤ len := by
              have : (f :: p :: rest2).length ≤ len + 1 := hlen
              simp at this ⊢
              omega
            exact ih _ typ tok ilabel root (by simp) hlen2
        · rw [aux_bad g typ tok ilabel _ root f rest hscan hacc]; rfl

/-- Witness for the amended claim C6: the expression grammar passes the
certificates with ranks E = 1, T = 0, and a call terminates within the
bound. -/
theorem claim_C6_witness :
    (addtokenAux gE 13 ⟨0⟩ 13 (1 + 1 + 2) none psE0.stack).isSome = true :=
  claim_C6 gE ranksE 1 (by decide) (by decide) (by decide) 1 psE0.stack
    13 ⟨0⟩ 13 none (by decide) (by decide)

mutual

/-- The growth order is reflexive on trees. -/
theorem treeLe_refl : ∀ a : PNode, treeLe a a = true
  | .leaf t k => by simp [treeLe]
  | .node t cs => by simp [treeLe]; exact chainLe_refl cs

/-- The growth order is reflexive on child lists. -/
theorem chainLe_refl : ∀ cs : List PNode, chainLe cs cs = true
  | [] => by simp [chainLe]
  | [c] => by simp [chainLe]; exact treeLe_refl c
  | c :: c2 :: cs => by
    simp [chainLe]
    exact chainLe_refl (c2 :: cs)

end

mutual

/-- The growth order is transitive on trees. -/
theorem treeLe_trans : ∀ a b c : PNode,
    treeLe a b = true → treeLe b c = true → treeLe a c = true
  | .leaf _ _, .leaf _ _, .leaf _ _ => by
    simp [treeLe]
    intro h1 h2 h3 h4
    exact ⟨h1.trans h3, h2.trans h4⟩
  | .leaf _ _, .leaf _ _, .node _ _ => by intro h1 h2; simp [treeLe] at h2
  | .leaf _ _, .node _ _, _ => by intro h1 h2; simp [treeLe] at h1
  | .node _ _, .leaf _ _, _ => by intro h1 h2; simp [treeLe] at h1
  | .node _ _, .node _ _, .leaf _ _ => by intro h1 h2; simp [treeLe] at h2
  | .node t cs, .node u ds, .node v es => by
    simp [treeLe]
    intro h1 h2 h3 h4
    exact ⟨h1.trans h3, chainLe_trans cs ds es h2 h4⟩

/-- The growth order is transitive on child lists. -/
theorem chainLe_trans : ∀ cs ds es : List PNode,
    chainLe cs ds = true → chainLe ds es = true → chainLe cs es = true
  | [], _, _ => by intro h1 h2; simp [chainLe]
  | _ :: _, [], _ => by intro h1 h2; simp [chainLe] at h1
  | _ :: _, _ :: _, [] => by intro h1 h2; simp [chainLe] at h2
  | [c], [d], e :: es => by
    intro h1 h2
    simp [chainLe] at h1 h2 ⊢
    exact treeLe_trans c d e h1 h2
  | [c], d :: d2 :: ds, e :: es => by
    intro h1 h2
    simp [chainLe] at h1 h2 ⊢
    obtain ⟨hde, _⟩ := h2
    subst hde
    exact h1
  | c :: c2 :: cs, d :: ds, e :: es => by
    intro h1 h2
    cases ds with
    | nil => simp [chainLe] at h1
    | cons d2 ds2 =>
      simp [chainLe] at h1 h2 ⊢
      obtain ⟨hcd, h1'⟩ := h1
      obtain ⟨hde, h2'⟩ := h2
      subst hcd
      subst hde
      exact ⟨rfl, chainLe_trans (c2 :: cs) (d2 :: ds2) es h1' h2'⟩

end

/-- Growing the last child of a list grows the list. -/
theorem chainLe_snoc (x y : PNode) (h : treeLe x y = true) :
    ∀ cs : List PNode, chainLe (cs ++ [x]) (cs ++ [y]) = true
  | [] => by simpa [chainLe] using h
  | [c] => by
    simp [chainLe]
    exact h
  | c :: c2 :: cs => by
    simp only [List.cons_append, chainLe]
    simp
    exact chainLe_snoc x y h (c2 :: cs)

/-- Appending a new child grows the list. -/
theorem chainLe_append_one (x : PNode) :
    ∀ cs : List PNode, chainLe cs (cs ++ [x]) = true
  | [] => by simp [chainLe]
  | [c] => by simp [chainLe]; exact treeLe_refl c
  | c :: c2 :: cs => by
    simp only [List.cons_append, chainLe]
    simp
    exact chainLe_append_one x (c2 :: cs)

/-- Collapsing is monotone in the top frame's node. -/
theorem collapseFrom_mono : ∀ (rest : List StackItem) (f g2 : StackItem),
    treeLe (PNode.node f.typ f.children) (PNode.node g2.typ g2.children) = true →
    treeLe (collapseFrom f rest) (collapseFrom g2 rest) = true
  | [], f, g2 => by intro h; simpa [collapseFrom] using h
  | p :: rest, f, g2 => by
    intro h
    simp only [collapseFrom]
    apply collapseFrom_mono rest
    simp [treeLe]
    exact chainLe_snoc _ _ h p.children

/-- Claim C8: the tree is append-only and bottom-up: every returning call
(successful or failing) takes the configuration's collapsed tree to an
extension of itself in the growth order `treeLe` — appended children are
never removed or reordered, and a child that has been handed to its
parent is never changed again. -/
theorem claim_C8 (g : Grammar) (typ : Nat) (tok : Token) (ilabel : Nat) :
    ∀ (fuel : Nat) (root : Option PNode) (stack : List StackItem) (r : AddResult),
    stack ≠ [] →
    addtokenAux g typ tok ilabel fuel root stack = some r →
    growsInto stack r := by
  intro fuel
  induction fuel with
  | zero => intro root stack r hne h; rw [aux_zero] at h; cases h
  | succ n ih =>
    intro root stack r hne h
    cases stack with
    | nil => exact absurd rfl hne
    | cons f rest =>
      cases hscan : scanArcs g ilabel (Dfa.stateAt f.dfa f.state).arcs with
      | some act =>
        cases act with
        | shift target =>
          by_cases hc : (rest.isEmpty && (Dfa.stateAt f.dfa target).accepting) = true
          · rw [aux_shift_done g typ tok ilabel n root f rest target hscan hc] at h
            cases h
            have hrest : rest = [] := by
              have := ((Bool.and_eq_true _ _).mp hc).1
              simpa using this
            subst hrest
            refine ⟨PNode.node f.typ f.children,
              PNode.node f.typ (f.children ++ [PNode.leaf typ tok]), rfl, rfl, ?_⟩
            simp [treeLe]
            exact chainLe_append_one _ f.children
          · rw [aux_shift_cont g typ tok ilabel n root f rest target hscan hc] at h
            cases h
            refine ⟨collapseFrom f rest,
              collapseFrom ⟨f.dfa, target, f.typ, f.children ++ [PNode.leaf typ tok]⟩ rest,
              rfl, rfl, ?_⟩
            apply collapseFrom_mono
            simp [treeLe]
            exact chainLe_append_one _ f.children
        | push nt d target =>
          rw [aux_push g typ tok ilabel n root f rest nt d target hscan] at h
          obtain ⟨T1, T2, hc1, hc2, hle⟩ := ih root _ r (by simp) h
          have hT1 : T1 = collapseFrom
              ⟨f.dfa, target, f.typ, f.children ++ [PNode.node nt []]⟩ rest := by
            simpa [collapseStack, collapseFrom] using hc1.symm
          refine ⟨collapseFrom f rest, T2, rfl, hc2, ?_⟩
          apply treeLe_trans _ T1 _ ?_ hle
          rw [hT1]
          apply collapseFrom_mono
          simp [treeLe]
          exact chainLe_append_one _ f.children
      | none =>
        by_cases hacc : (Dfa.stateAt f.dfa f.state).accepting = true
        · cases rest with
          | nil =>
            rw [aux_toomuch g typ tok ilabel n root f hscan hacc] at h
            cases h
            exact ⟨collapseFrom f [], collapseFrom f [], rfl, rfl, treeLe_refl _⟩
          | cons p rest2 =>
            rw [aux_pop g typ tok ilabel n root f p rest2 hscan hacc] at h
            obtain ⟨T1, T2, hc1, hc2, hle⟩ := ih root _ r (by simp) h
            refine ⟨T1, T2, ?_, hc2, hle⟩
            exact hc1
        · rw [aux_bad g typ tok ilabel n root f rest hscan hacc] at h
          cases h
          exact ⟨collapseFrom f rest, collapseFrom f rest, rfl, rfl, treeLe_refl _⟩

/-- Witness for claim C8: the PLUS call after one NUMBER (which pops T into
E and shifts) grows the collapsed tree. -/
theorem claim_C8_witness :
    growsInto psE1.stack (AddResult.ok false
      ⟨[⟨dE, 2, 256, [PNode.node 257 [PNode.leaf 13 ⟨0⟩], PNode.leaf 14 ⟨1⟩]⟩], none⟩) :=
  claim_C8 gE 14 ⟨1⟩ 14 10 none psE1.stack
    (AddResult.ok false
      ⟨[⟨dE, 2, 256, [PNode.node 257 [PNode.leaf 13 ⟨0⟩], PNode.leaf 14 ⟨1⟩]⟩], none⟩)
    (by decide) rfl

/-- A state that exhibits an arc is a real state of the automaton. -/
theorem stateAt_mem_of_arc (d : Dfa) (s : Nat) (a : Arc)
    (ha : a ∈ (Dfa.stateAt d s).arcs) : Dfa.stateAt d s ∈ d.states := by
  rcases Nat.lt_or_ge s d.states.length with hlt | hge
  · rw [Dfa.stateAt, List.getD_eq_getElem d.states _ hlt]
    exact List.getElem_mem _
  · rw [Dfa.stateAt, List.getD_eq_default _ _ hge] at ha
    simp at ha

/-- An accepting state is a real state of the automaton. -/
theorem stateAt_mem_of_accepting (d : Dfa) (s : Nat)
    (ha : (Dfa.stateAt d s).accepting = true) : Dfa.stateAt d s ∈ d.states := by
  rcases Nat.lt_or_ge s d.states.length with hlt | hge
  · rw [Dfa.stateAt, List.getD_eq_getElem d.states _ hlt]
    exact List.getElem_mem _
  · rw [Dfa.stateAt, List.getD_eq_default _ _ hge] at ha
    simp at ha

/-- With no empty-accepting start states, a derivation of the empty list
can only sit at an accepting state. -/
theorem empty_acc (g : Grammar) (hne : noEmptyStart g = true) :
    ∀ {d : Dfa} {s : Nat} {ts : List Nat}, GenState g d s ts → ts = [] →
    (Dfa.stateAt d s).accepting = true := by
  intro d s ts h
  induction h with
  | accept _ _ ha => intro _; exact ha
  | shift _ _ a ts hmem hlook hcont ih => intro hts; cases hts
  | descend d s a dB us ts hmem hlook hus hcont ihus ihts =>
    intro hempty
    have hu : us = [] := (List.append_eq_nil.mp hempty).1
    have haccB := ihus hu
    exfalso
    have hmem2 := lookup_mem a.label dB g.dfas hlook
    have h1 := (List.all_eq_true.mp hne) _ hmem2
    simp only [Bool.not_eq_true'] at h1
    rw [h1] at haccB
    cases haccB

/-- With no empty-accepting start states, no registered nonterminal derives
the empty sequence. -/
theorem no_empty_descent (g : Grammar) (hne : noEmptyStart g = true)
    (B : Nat) (dB : Dfa) (hlk : List.lookup B g.dfas = some dB)
    (h : GenState g dB 0 []) : False := by
  have hacc := empty_acc g hne h rfl
  have hmem2 := lookup_mem B dB g.dfas hlk
  have h1 := (List.all_eq_true.mp hne) _ hmem2
  simp only [Bool.not_eq_true'] at h1
  rw [h1] at hacc
  cases hacc

/-- The first label of any derivation is a terminal. -/
theorem head_terminal (g : Grammar) (hne : noEmptyStart g = true) :
    ∀ {d : Dfa} {s : Nat} {ts : List Nat}, GenState g d s ts →
    ∀ t rest, ts = t :: rest → List.lookup t g.dfas = none := by
  intro d s ts h
  induction h with
  | accept _ _ ha => intro t rest hts; cases hts
  | shift _ _ a ts hmem hlook hcont ih =>
    intro t rest hts
    cases hts
    exact hlook
  | descend d s a dB us ts hmem hlook hus hcont ihus ihts =>
    intro t rest hts
    cases us with
    | nil => exact absurd hus (fun hh => no_empty_descent g hne a.label dB hlook hh)
    | cons u us2 =>
      cases hts
      exact ihus t us2 rfl

/-- The first label of a derivation from a registered start state is in the
stored FIRST set (completeness of the stored FIRST data, from the
closure certificate). -/
theorem first_complete (g : Grammar) (hne : noEmptyStart g = true)
    (hfc : firstClosed g = true) :
    ∀ {d : Dfa} {s : Nat} {ts : List Nat}, GenState g d s ts → s = 0 →
    ∀ B, List.lookup B g.dfas = some d →
    ∀ t rest, ts = t :: rest → t ∈ firstOf g B := by
  intro d s ts h
  induction h with
  | accept _ _ ha => intro _ B hB t rest hts; cases hts
  | shift d s a ts hmem hlook hcont ih =>
    intro hs B hB t rest hts
    subst hs
    cases hts
    have h1 := (List.all_eq_true.mp hfc) (B, d) (lookup_mem B d g.dfas hB)
    have h2 := (List.all_eq_true.mp h1) a hmem
    have h3 := (List.all_eq_true.mp h2) a.label (by simp [tokensOf, hlook])
    exact of_decide_eq_true h3
  | descend d s a dB us ts hmem hlook hus hcont ihus ihts =>
    intro hs B hB t rest hts
    subst hs
    cases us with
    | nil => exact absurd hus (fun hh => no_empty_descent g hne a.label dB hlook hh)
    | cons u us2 =>
      cases hts
      have hfirst : t ∈ firstOf g a.label := ihus rfl a.label hlook t us2 rfl
      have h1 := (List.all_eq_true.mp hfc) (B, d) (lookup_mem B d g.dfas hB)
      have h2 := (List.all_eq_true.mp h1) a hmem
      have h3 := (List.all_eq_true.mp h2) t (by simp [tokensOf, hlook]; exact hfirst)
      exact of_decide_eq_true h3

/-- If no arc of the list can act on a terminal label, the scan fails. -/
theorem scan_none_of_no_match (g : Grammar) (ilabel : Nat)
    (ht : List.lookup ilabel g.dfas = none) :
    ∀ arcs : List Arc, (∀ a ∈ arcs, ilabel ∉ tokensOf g a) →
    scanArcs g ilabel arcs = none := by
  intro arcs
  induction arcs with
  | nil => intro _; rfl
  | cons a rest ih =>
    intro hno
    have hna := hno a (List.mem_cons_self _ _)
    by_cases h1 : a.label = ilabel
    · exfalso
      apply hna
      subst h1
      simp [tokensOf, ht]
    · cases hl : List.lookup a.label g.dfas with
      | some d =>
        have h2 : ilabel ∉ firstOf g a.label := by
          intro hmem
          apply hna
          simp [tokensOf, hl]
          exact hmem
        simp only [scanArcs, if_neg h1, hl, if_neg h2]
        exact ih (fun b hb => hno b (List.mem_cons_of_mem _ hb))
      | none =>
        simp only [scanArcs, if_neg h1, hl]
        exact ih (fun b hb => hno b (List.mem_cons_of_mem _ hb))

/-- The boolean pairwise-disjointness check gives propositional pairwise
disjointness of the arc token sets. -/
theorem arcsDisjoint_pairwise (g : Grammar) :
    ∀ arcs : List Arc, arcsDisjoint g arcs = true →
    List.Pairwise (fun x y => ∀ t, t ∈ tokensOf g x → t ∈ tokensOf g y → False) arcs := by
  intro arcs
  induction arcs with
  | nil => intro _; exact List.Pairwise.nil
  | cons a rest ih =>
    intro h
    rw [arcsDisjoint, Bool.and_eq_true] at h
    refine List.Pairwise.cons ?_ (ih h.2)
    intro b hb t hta htb
    have h1 := (List.all_eq_true.mp h.1) b hb
    have h2 := (List.all_eq_true.mp h1) t hta
    rw [Bool.not_eq_true'] at h2
    rw [decide_eq_false_iff_not] at h2
    exact h2 htb

/-- With pairwise disjoint arcs, the scan acts exactly on a given matching
arc: the action is a shift on an exact terminal match and a push on a
FIRST-set match. -/
theorem scan_witness (g : Grammar) (ilabel : Nat)
    (ht : List.lookup ilabel g.dfas = none) :
    ∀ (arcs : List Arc) (a : Arc),
    List.Pairwise (fun x y => ∀ t, t ∈ tokensOf g x → t ∈ tokensOf g y → False) arcs →
    a ∈ arcs → ilabel ∈ tokensOf g a →
    scanArcs g ilabel arcs = some (actionOf g ilabel a) := by
  intro arcs
  induction arcs with
  | nil => intro a _ hmem; cases hmem
  | cons b rest ih =>
    intro a hpw hmem hin
    rw [List.pairwise_cons] at hpw
    rcases List.mem_cons.mp hmem with hab | hmem2
    · subst hab
      by_cases h1 : a.label = ilabel
      · simp [scanArcs, h1, actionOf]
      · cases hl : List.lookup a.label g.dfas with
        | some d =>
          have h2 : ilabel ∈ firstOf g a.label := by
            have := hin
            simpa [tokensOf, hl] using this
          simp [scanArcs, h1, hl, h2, actionOf]
        | none =>
          exfalso
          apply h1
          have := hin
          simp [tokensOf, hl] at this
          exact this.symm
    · have hbno : ilabel ∉ tokensOf g b := by
        intro hbin
        exact hpw.1 a hmem2 ilabel hbin hin
      by_cases h1 : b.label = ilabel
      · exfalso
        apply hbno
        cases hl : List.lookup b.label g.dfas with
        | some d => rw [h1] at hl; rw [ht] at hl; cases hl
        | none => simp [tokensOf, hl, h1, ht]
      · cases hl : List.lookup b.label g.dfas with
        | some d =>
          have h2 : ilabel ∉ firstOf g b.label := by
            intro hmem3
            apply hbno
            simp [tokensOf, hl]
            exact hmem3
          simp only [scanArcs, if_neg h1, hl, if_neg h2]
          exact ih a hpw.2 hmem2 hin
        | none =>
          simp only [scanArcs, if_neg h1, hl]
          exact ih a hpw.2 hmem2 hin

/-- Reaching a decision is stable under more fuel. -/
theorem aux_mono (g : Grammar) (typ : Nat) (tok : Token) (ilabel : Nat) :
    ∀ (f1 f2 : Nat), f1 ≤ f2 →
    ∀ (root : Option PNode) (stack : List StackItem) (r : AddResult),
    addtokenAux g typ tok ilabel f1 root stack = some r →
    addtokenAux g typ tok ilabel f2 root stack = some r := by
  intro f1
  induction f1 with
  | zero => intro f2 hle root stack r h; rw [aux_zero] at h; cases h
  | succ n ih =>
    intro f2 hle root stack r h
    cases f2 with
    | zero => omega
    | succ m =>
      rw [aux_succ] at h
      rw [aux_succ]
      cases hstep : addtokenStep g typ tok ilabel root stack with
      | inr r2 => rw [hstep] at h; exact h
      | inl stack2 =>
        rw [hstep] at h
        simp only at h ⊢
        exact ih m (by omega) root stack2 r h

/-- Decisions are unique: two sufficient fuels give the same result. -/
theorem aux_unique (g : Grammar) (typ : Nat) (tok : Token) (ilabel : Nat)
    (f1 f2 : Nat) (root : Option PNode) (stack : List StackItem) (r1 r2 : AddResult)
    (h1 : addtokenAux g typ tok ilabel f1 root stack = some r1)
    (h2 : addtokenAux g typ tok ilabel f2 root stack = some r2) : r1 = r2 := by
  rcases Nat.le_total f1 f2 with hle | hle
  · have := aux_mono g typ tok ilabel f1 f2 hle root stack r1 h1
    rw [this] at h2
    cases h2
    rfl
  · have := aux_mono g typ tok ilabel f2 f1 hle root stack r2 h2
    rw [this] at h1
    cases h1
    rfl

/-- A token of an arc of a state is among the state's arc tokens. -/
theorem mem_arcTokens (g : Grammar) (st : DState) (a : Arc) (t : Nat)
    (ha : a ∈ st.arcs) (htok : t ∈ tokensOf g a) : t ∈ arcTokens g st := by
  rw [arcTokens, List.mem_flatten]
  exact ⟨tokensOf g a, List.mem_map_of_mem _ ha, htok⟩

/-- The head of any derivation is carried by some arc of its state. -/
theorem gen_head_arc (g : Grammar) (hne : noEmptyStart g = true)
    (hfc : firstClosed g = true) :
    ∀ {d : Dfa} {s : Nat} {ts : List Nat}, GenState g d s ts →
    ∀ t rest, ts = t :: rest →
    ∃ a, a ∈ (Dfa.stateAt d s).arcs ∧ t ∈ tokensOf g a := by
  intro d s ts h
  cases h with
  | accept _ _ ha => intro t rest hts; cases hts
  | shift d s a ts2 hmem hlook hcont =>
    intro t rest hts
    cases hts
    exact ⟨a, hmem, by simp [tokensOf, hlook]⟩
  | descend d s a dB us ts2 hmem hlook hus hcont =>
    intro t rest hts
    cases us with
    | nil => exact absurd hus (fun hh => no_empty_descent g hne a.label dB hlook hh)
    | cons u0 us2 =>
      cases hts
      refine ⟨a, hmem, ?_⟩
      have hf := first_complete g hne hfc hus rfl a.label hlook t us2 rfl
      simp [tokensOf, hlook]
      exact hf

/-- The next consumable token of a suspended stack is among its follow
tokens. -/
theorem follow_sound (g : Grammar) (hne : noEmptyStart g = true)
    (hfc : firstClosed g = true) :
    ∀ (fs : List StackItem) (t : Nat) (rest : List Nat),
    StackAccepts g fs (t :: rest) → fs ≠ [] → t ∈ followTokens g fs := by
  intro fs
  induction fs with
  | nil => intro t rest h hne2; exact absurd rfl hne2
  | cons p fs2 ih =>
    intro t rest h _
    obtain ⟨u, v, hsplit, hu, hv⟩ := h
    cases u with
    | nil =>
      have hacc := empty_acc g hne hu rfl
      simp only [List.nil_append] at hsplit
      subst hsplit
      have hfs2 : fs2 ≠ [] := by
        intro hfs2
        subst hfs2
        have : (t :: rest) = [] := hv
        cases this
      have hmem := ih t rest hv hfs2
      rw [followTokens]
      rw [if_pos hacc]
      exact List.mem_append_right _ hmem
    | cons u0 u2 =>
      have ht : t = u0 := by
        have := hsplit
        simp at this
        exact this.1
      subst ht
      obtain ⟨a, hamem, htok⟩ := gen_head_arc g hne hfc hu t u2 rfl
      rw [followTokens]
      exact List.mem_append_left _ (mem_arcTokens g _ a t hamem htok)

/-- The next consumable token of a non-empty accepted stack is a terminal. -/
theorem stack_head_terminal (g : Grammar) (hne : noEmptyStart g = true) :
    ∀ (fs : List StackItem) (t : Nat) (rest : List Nat),
    StackAccepts g fs (t :: rest) → fs ≠ [] → List.lookup t g.dfas = none := by
  intro fs
  induction fs with
  | nil => intro t rest h hne2; exact absurd rfl hne2
  | cons p fs2 ih =>
    intro t rest h _
    obtain ⟨u, v, hsplit, hu, hv⟩ := h
    cases u with
    | nil =>
      simp only [List.nil_append] at hsplit
      subst hsplit
      have hfs2 : fs2 ≠ [] := by
        intro hfs2
        subst hfs2
        have : (t :: rest) = [] := hv
        cases this
      exact ih t rest hv hfs2
    | cons u0 u2 =>
      have ht : t = u0 := by
        have := hsplit
        simp at this
        exact this.1
      subst ht
      exact head_terminal g hne hu t u2 rfl

/-- Extraction of the FOLLOW-closure certificate at a nonterminal arc. -/
theorem followClosed_at (g : Grammar) (fol : List (Nat × List Nat))
    (hf2 : followClosed g fol = true) (B : Nat) (d : Dfa) (st : DState) (a : Arc)
    (dB : Dfa) (hBd : (B, d) ∈ g.dfas) (hst : st ∈ d.states) (ha : a ∈ st.arcs)
    (hl : List.lookup a.label g.dfas = some dB) :
    (∀ t ∈ arcTokens g (Dfa.stateAt d a.target), t ∈ followOf fol a.label) ∧
    ((Dfa.stateAt d a.target).accepting = true →
      ∀ t ∈ followOf fol B, t ∈ followOf fol a.label) := by
  have h1 := (List.all_eq_true.mp hf2) (B, d) hBd
  have h2 := (List.all_eq_true.mp h1) st hst
  have h3 := (List.all_eq_true.mp h2) a ha
  rw [hl] at h3
  simp only [Bool.and_eq_true] at h3
  constructor
  · intro t hmem
    exact of_decide_eq_true ((List.all_eq_true.mp h3.1) t hmem)
  · intro hacc t hmem
    have h4 := h3.2
    rw [Bool.or_eq_true] at h4
    cases h4 with
    | inl h5 =>
      rw [Bool.not_eq_true'] at h5
      rw [h5] at hacc
      cases hacc
    | inr h5 =>
      exact of_decide_eq_true ((List.all_eq_true.mp h5) t hmem)

/-- Extraction of the FOLLOW-conflict certificate at an accepting state. -/
theorem noFollowConflict_at (g : Grammar) (fol : List (Nat × List Nat))
    (hf3 : noFollowConflict g fol = true) (B : Nat) (d : Dfa) (st : DState)
    (hBd : (B, d) ∈ g.dfas) (hst : st ∈ d.states) (hacc : st.accepting = true) :
    ∀ a ∈ st.arcs, ∀ t ∈ tokensOf g a, t ∉ followOf fol B := by
  have h1 := (List.all_eq_true.mp hf3) (B, d) hBd
  have h2 := (List.all_eq_true.mp h1) st hst
  rw [Bool.or_eq_true] at h2
  cases h2 with
  | inl h3 =>
    rw [Bool.not_eq_true'] at h3
    rw [h3] at hacc
    cases hacc
  | inr h3 =>
    intro a ha t ht hfol
    have h4 := (List.all_eq_true.mp h3) a ha
    have h5 := (List.all_eq_true.mp h4) t ht
    rw [Bool.not_eq_true'] at h5
    rw [decide_eq_false_iff_not] at h5
    exact h5 hfol

/-- Extraction of the arc-disjointness certificate at a state. -/
theorem disjointCert_at (g : Grammar) (hdj : disjointCert g = true)
    (B : Nat) (d : Dfa) (st : DState) (hBd : (B, d) ∈ g.dfas) (hst : st ∈ d.states) :
    List.Pairwise (fun x y => ∀ t, t ∈ tokensOf g x → t ∈ tokensOf g y → False) st.arcs := by
  have h1 := (List.all_eq_true.mp hdj) (B, d) hBd
  have h2 := (List.all_eq_true.mp h1) st hst
  exact arcsDisjoint_pairwise g st.arcs h2

/-- Progress while the witness derivation consumes the token in the top
frame: with the full certificate, the call reaches an ok decision and,
unless the parse completed, preserves the stack invariants for the rest
of the witness. -/
theorem consume (g : Grammar) (fol : List (Nat × List Nat)) (typ : Nat) (tok : Token)
    (hne : noEmptyStart g = true) (hfc : firstClosed g = true)
    (hdj : disjointCert g = true) (hf2 : followClosed g fol = true) :
    ∀ {d : Dfa} {s : Nat} {u : List Nat}, GenState g d s u →
    ∀ (t : Nat) (u2 : List Nat), u = t :: u2 →
    ∀ (B : Nat) (ch : List PNode) (fs : List StackItem) (v : List Nat)
      (root : Option PNode),
    List.lookup B g.dfas = some d →
    StackWF g fs → StackAccepts g fs v →
    FollowOK g fol (⟨d, s, B, ch⟩ :: fs) →
    ∃ (fuel : Nat) (done : Bool) (ps2 : PState),
      addtokenAux g typ tok t fuel root (⟨d, s, B, ch⟩ :: fs) =
        some (AddResult.ok done ps2) ∧
      (done = false → ps2.stack ≠ [] ∧ StackWF g ps2.stack ∧
        StackAccepts g ps2.stack (u2 ++ v) ∧ FollowOK g fol ps2.stack ∧
        ps2.rootnode = root) := by
  intro d s u h
  induction h with
  | accept _ _ ha => intro t u2 hu; cases hu
  | shift d s a ts hmem hlookT hcont ihcont =>
    intro t u2 hu B ch fs v root hB hwfS hacc hfol
    cases hu
    have hstmem : Dfa.stateAt d s ∈ d.states := stateAt_mem_of_arc d s a hmem
    have hpw := disjointCert_at g hdj B d _ (lookup_mem B d g.dfas hB) hstmem
    have htok : a.label ∈ tokensOf g a := by simp [tokensOf, hlookT]
    have hscan := scan_witness g a.label hlookT _ a hpw hmem htok
    have haction : actionOf g a.label a = ArcAction.shift a.target := by
      simp [actionOf]
    rw [haction] at hscan
    by_cases hc : (fs.isEmpty && (Dfa.stateAt d a.target).accepting) = true
    · exact ⟨1, true, _,
        aux_shift_done g typ tok a.label 0 root ⟨d, s, B, ch⟩ fs a.target hscan hc,
        fun hfalse => by cases hfalse⟩
    · refine ⟨1, false, _,
        aux_shift_cont g typ tok a.label 0 root ⟨d, s, B, ch⟩ fs a.target hscan hc, ?_⟩
      intro _
      have hfol2 : (∀ t2 ∈ followTokens g fs, t2 ∈ followOf fol B) ∧
          FollowOK g fol fs := hfol
      refine ⟨by simp, ?_, ⟨ts, v, rfl, hcont, hacc⟩, ⟨hfol2.1, hfol2.2⟩, rfl⟩
      intro f2 hf2m
      rcases List.mem_cons.mp hf2m with he | hm
      · subst he; exact hB
      · exact hwfS f2 hm
  | descend d s a dB us ts hmem hlookN hus hcont ihus ihcont =>
    intro t u2 hu B ch fs v root hB hwfS hacc hfol
    cases us with
    | nil => exact absurd hus (fun hh => no_empty_descent g hne a.label dB hlookN hh)
    | cons u0 us2 =>
      cases hu
      have hterm : List.lookup t g.dfas = none := head_terminal g hne hus t us2 rfl
      have hfirst : t ∈ firstOf g a.label :=
        first_complete g hne hfc hus rfl a.label hlookN t us2 rfl
      have htok : t ∈ tokensOf g a := by simp [tokensOf, hlookN]; exact hfirst
      have hstmem := stateAt_mem_of_arc d s a hmem
      have hpw := disjointCert_at g hdj B d _ (lookup_mem B d g.dfas hB) hstmem
      have hscan := scan_witness g t hterm _ a hpw hmem htok
      have hlabne : ¬(a.label = t) := by
        intro he
        rw [he, hterm] at hlookN
        cases hlookN
      have haction : actionOf g t a = ArcAction.push a.label dB a.target := by
        simp [actionOf, hlabne, hlookN]
      rw [haction] at hscan
      have hfc2 := followClosed_at g fol hf2 B d _ a dB
        (lookup_mem B d g.dfas hB) hstmem hmem hlookN
      have hfol2 : (∀ t2 ∈ followTokens g fs, t2 ∈ followOf fol B) ∧
          FollowOK g fol fs := hfol
      have hwfS2 : StackWF g (⟨d, a.target, B, ch⟩ :: fs) := by
        intro f2 hf2m
        rcases List.mem_cons.mp hf2m with he | hm
        · subst he; exact hB
        · exact hwfS f2 hm
      have hacc2 : StackAccepts g (⟨d, a.target, B, ch⟩ :: fs) (ts ++ v) :=
        ⟨ts, v, rfl, hcont, hacc⟩
      have hfolNew : FollowOK g fol
          (⟨dB, 0, a.label, []⟩ :: ⟨d, a.target, B, ch⟩ :: fs) := by
        refine ⟨?_, hfol2.1, hfol2.2⟩
        intro t2 ht2
        rw [followTokens] at ht2
        rcases List.mem_append.mp ht2 with hl2 | hr2
        · exact hfc2.1 t2 hl2
        · by_cases haccT : (Dfa.stateAt d a.target).accepting = true
          · rw [if_pos haccT] at hr2
            exact hfc2.2 haccT t2 (hfol2.1 t2 hr2)
          · rw [if_neg haccT] at hr2
            simp at hr2
      obtain ⟨fuel0, done, ps2, heq, hinv⟩ :=
        ihus t us2 rfl a.label [] (⟨d, a.target, B, ch⟩ :: fs) (ts ++ v) root
          hlookN hwfS2 hacc2 hfolNew
      refine ⟨fuel0 + 1, done, ps2, ?_, ?_⟩
      · rw [aux_push g typ tok t fuel0 root ⟨d, s, B, ch⟩ fs a.label dB a.target hscan]
        exact heq
      · intro hdone
        obtain ⟨h1, h2, h3, h4, h5⟩ := hinv hdone
        refine ⟨h1, h2, ?_, h4, h5⟩
        show StackAccepts g ps2.stack ((us2 ++ ts) ++ v)
        rw [List.append_assoc]
        exact h3

/-- Single-call progress: with the full certificate, a call on a token that
the current configuration can consume returns without a Parse Error and,
unless the parse completed, preserves the stack invariants for the
remaining input. -/
theorem progress (g : Grammar) (fol : List (Nat × List Nat)) (typ : Nat) (tok : Token)
    (hne : noEmptyStart g = true) (hfc : firstClosed g = true)
    (hdj : disjointCert g = true) (hf2 : followClosed g fol = true)
    (hf3 : noFollowConflict g fol = true) :
    ∀ (n : Nat) (stack : List StackItem) (t : Nat) (rest : List Nat)
      (root : Option PNode),
    stack.length ≤ n → stack ≠ [] →
    StackWF g stack → StackAccepts g stack (t :: rest) → FollowOK g fol stack →
    ∃ (fuel : Nat) (done : Bool) (ps2 : PState),
      addtokenAux g typ tok t fuel root stack = some (AddResult.ok done ps2) ∧
      (done = false → ps2.stack ≠ [] ∧ StackWF g ps2.stack ∧
        StackAccepts g ps2.stack rest ∧ FollowOK g fol ps2.stack ∧
        ps2.rootnode = root) := by
  intro n
  induction n with
  | zero =>
    intro stack t rest root hlen hnil hwf hacc hfol
    cases stack with
    | nil => exact absurd rfl hnil
    | cons f fs => simp at hlen
  | succ n ih =>
    intro stack t rest root hlen hnil hwf hacc hfol
    cases stack with
    | nil => exact absurd rfl hnil
    | cons f fs =>
      obtain ⟨u, v, hsplit, hu, hv⟩ := hacc
      cases u with
      | cons u0 u2 =>
        have h0 : u0 = t ∧ rest = u2 ++ v := by
          have := hsplit
          simp at this
          exact ⟨this.1.symm, this.2⟩
        obtain ⟨h0a, h0b⟩ := h0
        subst h0a
        subst h0b
        have hfB : List.lookup f.typ g.dfas = some f.dfa :=
          hwf f (List.mem_cons_self _ _)
        have hwfS : StackWF g fs := fun f2 hm => hwf f2 (List.mem_cons_of_mem _ hm)
        exact consume g fol typ tok hne hfc hdj hf2 hu u0 u2 rfl
          f.typ f.children fs v root hfB hwfS hv hfol
      | nil =>
        have haccst := empty_acc g hne hu rfl
        simp only [List.nil_append] at hsplit
        subst hsplit
        have hfs : fs ≠ [] := by
          intro hfs0
          subst hfs0
          have : (t :: rest) = [] := hv
          cases this
        cases fs with
        | nil => exact absurd rfl hfs
        | cons p fs2 =>
          have hterm := stack_head_terminal g hne (p :: fs2) t rest hv hfs
          have hft := follow_sound g hne hfc (p :: fs2) t rest hv hfs
          have hfol2 : (∀ t2 ∈ followTokens g (p :: fs2), t2 ∈ followOf fol f.typ) ∧
              FollowOK g fol (p :: fs2) := hfol
          have hinF : t ∈ followOf fol f.typ := hfol2.1 t hft
          have hstmem := stateAt_mem_of_accepting f.dfa f.state haccst
          have hnoarc : ∀ a ∈ (Dfa.stateAt f.dfa f.state).arcs, t ∉ tokensOf g a := by
            intro a ha htok
            exact noFollowConflict_at g fol hf3 f.typ f.dfa _
              (lookup_mem _ _ _ (hwf f (List.mem_cons_self _ _))) hstmem haccst
              a ha t htok hinF
          have hscan := scan_none_of_no_match g t hterm _ hnoarc
          have hv2 : StackAccepts g
              (⟨p.dfa, p.state, p.typ, p.children ++ [PNode.node f.typ f.children]⟩ :: fs2)
              (t :: rest) := by
            obtain ⟨up, vp, hsp, hup, hvp⟩ := hv
            exact ⟨up, vp, hsp, hup, hvp⟩
          have hwf2 : StackWF g
              (⟨p.dfa, p.state, p.typ, p.children ++ [PNode.node f.typ f.children]⟩ :: fs2) := by
            intro f2 hm
            rcases List.mem_cons.mp hm with he | hm2
            · subst he
              exact hwf p (List.mem_cons_of_mem _ (List.mem_cons_self _ _))
            · exact hwf f2 (List.mem_cons_of_mem _ (List.mem_cons_of_mem _ hm2))
          have hfol3 : FollowOK g fol
              (⟨p.dfa, p.state, p.typ, p.children ++ [PNode.node f.typ f.children]⟩ :: fs2) := by
            have hpfs : (∀ t2 ∈ followTokens g fs2, t2 ∈ followOf fol p.typ) ∧
                FollowOK g fol fs2 := hfol2.2
            exact ⟨hpfs.1, hpfs.2⟩
          have hlen2 : (⟨p.dfa, p.state, p.typ,
              p.children ++ [PNode.node f.typ f.children]⟩ :: fs2).length ≤ n := by
            have := hlen
            simp at this ⊢
            omega
          obtain ⟨fuel0, done, ps2, heq, hinv⟩ :=
            ih _ t rest root hlen2 (by simp) hwf2 hv2 hfol3
          refine ⟨fuel0 + 1, done, ps2, ?_, hinv⟩
          rw [aux_pop g typ tok t fuel0 root f p fs2 hscan haccst]
          exact heq

/-- Feeding is stable under more fuel as long as fuel did not run out. -/
theorem feed_mono (g : Grammar) :
    ∀ (ts : List (Nat × Token × Nat)) (ps : PState) (f1 f2 : Nat) (o : FeedOutcome),
    f1 ≤ f2 → feedSeq g f1 ts ps = o → o ≠ FeedOutcome.outOfFuel →
    feedSeq g f2 ts ps = o := by
  intro ts
  induction ts with
  | nil => intro ps f1 f2 o hle h hno; exact h
  | cons c rest ih =>
    intro ps f1 f2 o hle h hno
    rw [feedSeq] at h ⊢
    cases hc : addtoken g c.1 c.2.1 c.2.2 f1 ps with
    | none =>
      rw [hc] at h
      simp only at h
      exact absurd h.symm hno
    | some r =>
      have hc2 : addtoken g c.1 c.2.1 c.2.2 f2 ps = some r :=
        aux_mono g c.1 c.2.1 c.2.2 f1 f2 hle ps.rootnode ps.stack r hc
      rw [hc] at h
      rw [hc2]
      cases r with
      | ok done ps2 =>
        cases done with
        | true => exact h
        | false =>
          simp only at h ⊢
          exact ih ps2 f1 f2 o hle h hno
      | err e ps2 => exact h

/-- Running a valid-witnessed configuration over a token sequence ends well
(still active, or completed), for some sufficient fuel. -/
theorem seq_good (g : Grammar) (fol : List (Nat × List Nat))
    (hne : noEmptyStart g = true) (hfc : firstClosed g = true)
    (hdj : disjointCert g = true) (hf2 : followClosed g fol = true)
    (hf3 : noFollowConflict g fol = true) :
    ∀ (ts : List (Nat × Token × Nat)) (ext : List Nat) (ps : PState),
    ps.stack ≠ [] → StackWF g ps.stack →
    StackAccepts g ps.stack (labelsOf ts ++ ext) → FollowOK g fol ps.stack →
    ∃ fuel, goodOutcome (feedSeq g fuel ts ps) = true := by
  intro ts
  induction ts with
  | nil => intro ext ps hne2 hwf hacc hfol; exact ⟨0, rfl⟩
  | cons c rest ih =>
    intro ext ps hne2 hwf hacc hfol
    have hacc2 : StackAccepts g ps.stack (c.2.2 :: (labelsOf rest ++ ext)) := by
      have : labelsOf (c :: rest) ++ ext = c.2.2 :: (labelsOf rest ++ ext) := by
        simp [labelsOf]
      rw [this] at hacc
      exact hacc
    obtain ⟨fuel0, done, ps2, heq, hinv⟩ :=
      progress g fol c.1 c.2.1 hne hfc hdj hf2 hf3 ps.stack.length ps.stack c.2.2
        (labelsOf rest ++ ext) ps.rootnode (Nat.le_refl _) hne2 hwf hacc2 hfol
    cases done with
    | true =>
      refine ⟨fuel0, ?_⟩
      rw [feedSeq]
      have hcall : addtoken g c.1 c.2.1 c.2.2 fuel0 ps =
          some (AddResult.ok true ps2) := heq
      rw [hcall]
      rfl
    | false =>
      obtain ⟨h1, h2, h3, h4, h5⟩ := hinv rfl
      obtain ⟨fuel1, hgood⟩ := ih ext ps2 h1 h2 h3 h4
      refine ⟨max fuel0 fuel1, ?_⟩
      have hcall : addtoken g c.1 c.2.1 c.2.2 (max fuel0 fuel1) ps =
          some (AddResult.ok false ps2) :=
        aux_mono g c.1 c.2.1 c.2.2 fuel0 (max fuel0 fuel1) (Nat.le_max_left _ _)
          ps.rootnode ps.stack _ heq
      rw [feedSeq, hcall]
      simp only
      have hno : feedSeq g fuel1 rest ps2 ≠ FeedOutcome.outOfFuel := by
        intro hof
        rw [hof] at hgood
        cases hgood
      rw [feed_mono g rest ps2 fuel1 (max fuel0 fuel1) _ (Nat.le_max_right _ _) rfl hno]
      exact hgood

/-- Claim C2 (amended): for every grammar table passing the strong-LL(1)
certificate, every token sequence whose labels form a valid prefix of
some derivation of the start symbol is consumed from a freshly set-up
parser without any Parse Error (and without fuel exhaustion), until the
parse completes. -/
theorem claim_C2 (g : Grammar) (fol : List (Nat × List Nat))
    (hw : wfCert g fol = true) (ts : List (Nat × Token × Nat)) (ps0 : PState)
    (hsetup : setup g g.start = some ps0)
    (hvalid : validPref g g.start (labelsOf ts)) :
    eventuallyGood g ts ps0 := by
  have hw2 := hw
  simp only [wfCert, Bool.and_eq_true] at hw2
  obtain ⟨⟨⟨⟨hne, hfc⟩, hdj⟩, hf2⟩, hf3⟩ := hw2
  obtain ⟨ext, dS, hlkS, hgen⟩ := hvalid
  have hps : ps0 = ⟨[⟨dS, 0, g.start, []⟩], none⟩ := by
    rw [setup, hlkS] at hsetup
    cases hsetup
    rfl
  subst hps
  apply seq_good g fol hne hfc hdj hf2 hf3 ts ext
  · simp
  · intro f2 hm
    rcases List.mem_cons.mp hm with he | hm2
    · subst he; exact hlkS
    · cases hm2
  · exact ⟨labelsOf ts ++ ext, [], (List.append_nil _).symm, hgen, rfl⟩
  · refine ⟨?_, trivial⟩
    intro t2 ht2
    simp [followTokens] at ht2

/-- Running to an active state transports the stack invariants along the
consumed tokens of a witness derivation. -/
theorem seq_track (g : Grammar) (fol : List (Nat × List Nat))
    (hne : noEmptyStart g = true) (hfc : firstClosed g = true)
    (hdj : disjointCert g = true) (hf2 : followClosed g fol = true)
    (hf3 : noFollowConflict g fol = true) :
    ∀ (ts : List (Nat × Token × Nat)) (ps ps1 : PState) (fuel : Nat)
      (more : List Nat),
    ps.stack ≠ [] → StackWF g ps.stack →
    StackAccepts g ps.stack (labelsOf ts ++ more) → FollowOK g fol ps.stack →
    feedSeq g fuel ts ps = FeedOutcome.active ps1 →
    ps1.stack ≠ [] ∧ StackWF g ps1.stack ∧ StackAccepts g ps1.stack more ∧
      FollowOK g fol ps1.stack := by
  intro ts
  induction ts with
  | nil =>
    intro ps ps1 fuel more hne2 hwf hacc hfol h
    have hps : ps = ps1 := by
      rw [feedSeq] at h
      cases h
      rfl
    subst hps
    refine ⟨hne2, hwf, ?_, hfol⟩
    simpa [labelsOf] using hacc
  | cons c rest ih =>
    intro ps ps1 fuel more hne2 hwf hacc hfol h
    rw [feedSeq] at h
    cases hc : addtoken g c.1 c.2.1 c.2.2 fuel ps with
    | none => rw [hc] at h; cases h
    | some r =>
      rw [hc] at h
      cases r with
      | err e ps2 => cases h
      | ok done ps2 =>
        cases done with
        | true => cases h
        | false =>
          simp only at h
          have hacc2 : StackAccepts g ps.stack (c.2.2 :: (labelsOf rest ++ more)) := by
            have heq2 : labelsOf (c :: rest) ++ more =
                c.2.2 :: (labelsOf rest ++ more) := by simp [labelsOf]
            rw [heq2] at hacc
            exact hacc
          obtain ⟨fuel0, doneP, ps2P, heqP, hinvP⟩ :=
            progress g fol c.1 c.2.1 hne hfc hdj hf2 hf3 ps.stack.length ps.stack
              c.2.2 (labelsOf rest ++ more) ps.rootnode (Nat.le_refl _) hne2 hwf
              hacc2 hfol
          have huniq := aux_unique g c.1 c.2.1 c.2.2 fuel fuel0 ps.rootnode ps.stack
            (AddResult.ok false ps2) (AddResult.ok doneP ps2P) hc heqP
          cases huniq
          obtain ⟨h1, h2, h3, h4, _⟩ := hinvP rfl
          exact ih ps2 ps1 fuel more h1 h2 h3 h4 h

/-- Claim C3 (amended): with the certificate, a Parse Error is never raised
at a token that still has a valid continuation: if the run of `pre` is
still active and the next call fails, then the consumed labels followed
by the failing label are not a valid prefix of any derivation.  (The
error can, however, come later than the first invalid token on inexact
tables; see the counterexample.) -/
theorem claim_C3 (g : Grammar) (fol : List (Nat × List Nat))
    (hw : wfCert g fol = true) (pre : List (Nat × Token × Nat))
    (c : Nat × Token × Nat) (ps0 ps1 ps2 : PState) (fuel fuel2 : Nat)
    (e : ParseError) (hsetup : setup g g.start = some ps0)
    (hrun : feedSeq g fuel pre ps0 = FeedOutcome.active ps1)
    (herr : addtoken g c.1 c.2.1 c.2.2 fuel2 ps1 = some (AddResult.err e ps2)) :
    ¬ validPref g g.start (labelsOf pre ++ [c.2.2]) := by
  rintro ⟨ext, dS, hlkS, hgen⟩
  have hw2 := hw
  simp only [wfCert, Bool.and_eq_true] at hw2
  obtain ⟨⟨⟨⟨hne, hfc⟩, hdj⟩, hf2⟩, hf3⟩ := hw2
  have hps : ps0 = ⟨[⟨dS, 0, g.start, []⟩], none⟩ := by
    rw [setup, hlkS] at hsetup
    cases hsetup
    rfl
  subst hps
  have hgen2 : GenState g dS 0 (labelsOf pre ++ (c.2.2 :: ext)) := by
    have heq2 : (labelsOf pre ++ [c.2.2]) ++ ext =
        labelsOf pre ++ (c.2.2 :: ext) := by simp
    rw [heq2] at hgen
    exact hgen
  have htrack := seq_track g fol hne hfc hdj hf2 hf3 pre
    ⟨[⟨dS, 0, g.start, []⟩], none⟩ ps1 fuel (c.2.2 :: ext)
    (by simp)
    (by
      intro f2 hm
      rcases List.mem_cons.mp hm with he | hm2
      · subst he; exact hlkS
      · cases hm2)
    ⟨labelsOf pre ++ (c.2.2 :: ext), [], (List.append_nil _).symm, hgen2, rfl⟩
    (by
      refine ⟨?_, trivial⟩
      intro t2 ht2
      simp [followTokens] at ht2)
    hrun
  obtain ⟨h1, h2, h3, h4⟩ := htrack
  obtain ⟨fuel0, doneP, ps2P, heqP, _⟩ :=
    progress g fol c.1 c.2.1 hne hfc hdj hf2 hf3 ps1.stack.length ps1.stack
      c.2.2 ext ps1.rootnode (Nat.le_refl _) h1 h2 h3 h4
  have huniq := aux_unique g c.1 c.2.1 c.2.2 fuel2 fuel0 ps1.rootnode ps1.stack
    (AddResult.err e ps2) (AddResult.ok doneP ps2P) herr heqP
  cases huniq

/-- Witness for the amended claim C2: the expression grammar passes the
certificate and the spec's example sequence NUMBER PLUS NUMBER runs with
no error. -/
theorem claim_C2_witness :
    eventuallyGood gE [(13, ⟨0⟩, 13), (14, ⟨1⟩, 14), (13, ⟨2⟩, 13)] psE0 := by
  have hT1 : GenState gE dT 0 [13] :=
    GenState.shift dT 0 ⟨13, 1⟩ [] (by decide) (by decide)
      (GenState.accept dT 1 (by decide))
  have hE2 : GenState gE dE 2 ([13] ++ []) :=
    GenState.descend dE 2 ⟨257, 1⟩ dT [13] [] (by decide) (by decide) hT1
      (GenState.accept dE 1 (by decide))
  have hE1 : GenState gE dE 1 (14 :: [13]) :=
    GenState.shift dE 1 ⟨14, 2⟩ [13] (by decide) (by decide) hE2
  have hfull : GenState gE dE 0 ([13] ++ [14, 13]) :=
    GenState.descend dE 0 ⟨257, 1⟩ dT [13] [14, 13] (by decide) (by decide) hT1 hE1
  exact claim_C2 gE folE (by decide) [(13, ⟨0⟩, 13), (14, ⟨1⟩, 14), (13, ⟨2⟩, 13)]
    psE0 rfl ⟨[], dE, by decide, hfull⟩

/-- Witness for the amended claim C3: NUMBER NUMBER on the expression
grammar fails at the second NUMBER, so NUMBER NUMBER is provably not a
valid prefix. -/
theorem claim_C3_witness : ¬ validPref gE 256 [13, 13] :=
  claim_C3 gE folE (by decide) [(13, ⟨0⟩, 13)] (13, ⟨1⟩, 13) psE0 psE1
    ⟨[⟨dE, 1, 256, [PNode.node 257 [PNode.leaf 13 ⟨0⟩]]⟩], none⟩ 10 10
    (ParseError.make tooMuchInputMsg errTooMuchInput ⟨1⟩) rfl rfl rfl
